import Mathlib

/-!
Verification of the write-ahead log subsystem of parity-db (`src/log.rs`).

The Rust code is shallowly embedded: machine integers (`u8`, `u16`, `u32`,
`u64`) become `Nat`, with an explicit `% 2 ^ w` where wrap-around matters;
`HashMap`s become association lists (iteration order = list order, one
refinement of the HashMap's unspecified order); files become byte lists with
a cursor position; fallible operations return `Option` or `Except`.
-/

namespace ParityDb


/-- `ENTRY_BYTES`: size in bytes of one index sub-entry.  Modelled from the
spec: the constant is supplied by `index.rs`, which is not among the sources
under verification; an index chunk is a fixed block of 64 sub-entries of
`ENTRY_BYTES` each (spec §3).  No theorem below depends on the
concrete value. -/
def ENTRY_BYTES : Nat := 8

/-- Size in bytes of an index chunk: 64 sub-entries (spec §3). -/
def CHUNK_BYTES : Nat := 64 * ENTRY_BYTES

/-- Little-endian byte encoding of `n` on `w` bytes (Rust `to_le_bytes`). -/
def leBytes : Nat → Nat → List Nat
  | 0, _ => []
  | w + 1, n => n % 256 :: leBytes w (n / 256)

/-- Little-endian byte decoding (Rust `from_le_bytes`). -/
def fromLE (bs : List Nat) : Nat := bs.foldr (fun b acc => b + 256 * acc) 0

/-! ### CRC-32

Model of the `crc32fast` hasher used by both `LogChange::to_file` and
`LogReader`: the standard bitwise reflected CRC-32 (IEEE polynomial
`0xEDB88320`), state initialised to `0xFFFFFFFF`, finalised by xor with
`0xFFFFFFFF`. -/

def crcRound (x : Nat) : Nat :=
  if x % 2 = 1 then Nat.xor (x / 2) 0xEDB88320 else x / 2

def crcRounds : Nat → Nat → Nat
  | 0, x => x
  | k + 1, x => crcRounds k (crcRound x)

def crcByte (s b : Nat) : Nat := crcRounds 8 (Nat.xor s b)

/-- Feed a byte list into a CRC-32 state (`Hasher::update`). -/
def crcUpd (s : Nat) (bs : List Nat) : Nat := bs.foldl crcByte s

def crcInit : Nat := 0xFFFFFFFF

def crcFinalize (s : Nat) : Nat := Nat.xor s 0xFFFFFFFF

/-- CRC-32 of a byte list (`Hasher::new` + `update` + `finalize`). -/
def crc32 (bs : List Nat) : Nat := crcFinalize (crcUpd crcInit bs)

/-! ### Trailing zeros, popcount and the sub-entry emission loop

`LogChange::to_file` serializes the modified sub-entries of an index chunk
with the loop

    while mask != 0 { let i = mask.trailing_zeros();
                      mask = mask & !(1 << i);
                      write(&chunk[i*ENTRY_BYTES .. (i+1)*ENTRY_BYTES]) }

For the lowest set bit `i` of a 64-bit `mask`, `mask & !(1 << i)` equals
`mask - 2 ^ i`; the loop is embedded below with that subtraction, using
structural fuel (the value itself bounds the iteration count). -/

def lowBitAux : Nat → Nat → Nat
  | 0, _ => 0
  | f + 1, n => if n % 2 = 1 then 0 else lowBitAux f (n / 2) + 1

/-- Index of the lowest set bit (Rust `u64::trailing_zeros`); meaningful for
`n ≠ 0`. -/
def lowBit (n : Nat) : Nat := lowBitAux n n

def popcountAux : Nat → Nat → Nat
  | 0, _ => 0
  | f + 1, n => if n = 0 then 0 else n % 2 + popcountAux f (n / 2)

/-- Number of set bits of `n` (`popcount`). -/
def popcount (n : Nat) : Nat := popcountAux n n

/-- Set-bit positions of `mask` in the order the serialization loop visits
them: lowest first, clearing each visited bit. -/
def bitsAscAux : Nat → Nat → List Nat
  | 0, _ => []
  | f + 1, mask =>
    if mask = 0 then [] else lowBit mask :: bitsAscAux f (mask - 2 ^ lowBit mask)

def bitsAsc (mask : Nat) : List Nat := bitsAscAux mask mask

/-- The byte stream emitted by the `while mask != 0` loop of
`LogChange::to_file` for one index overlay entry. -/
def subEntriesAux (chunk : List Nat) : Nat → Nat → List Nat
  | 0, _ => []
  | f + 1, mask =>
    if mask = 0 then [] else
      (chunk.drop (lowBit mask * ENTRY_BYTES)).take ENTRY_BYTES
        ++ subEntriesAux chunk f (mask - 2 ^ lowBit mask)

def subEntries (mask : Nat) (chunk : List Nat) : List Nat := subEntriesAux chunk mask mask

/-! ### Association-list model of `HashMap`

Iteration order of a Rust `HashMap` is unspecified; the model fixes it to
list order.  All maps built by the modelled operations have pairwise distinct
keys (`NodupKeys` below). -/

/-- `HashMap::get`: value under the first occurrence of key `k`. -/
def aget {α : Type} (l : List (Nat × α)) (k : Nat) : Option α :=
  (l.find? (fun p => p.1 == k)).map (fun p => p.2)

/-- `HashMap::insert` (also `*entry.get_mut() = v` on an occupied entry):
replace the value under an existing key in place, otherwise append. -/
def aset {α : Type} (l : List (Nat × α)) (k : Nat) (v : α) : List (Nat × α) :=
  if l.any (fun p => p.1 == k) then
    l.map (fun p => if p.1 == k then (k, v) else p)
  else l ++ [(k, v)]

/-- `OccupiedEntry::remove_entry`. -/
def aremove {α : Type} (l : List (Nat × α)) (k : Nat) : List (Nat × α) :=
  l.filter (fun p => !(p.1 == k))

/-- `Extend::extend`: insert every pair of `m` into `l`, entries of `m`
replacing entries of `l` at the same key. -/
def aextend {α : Type} (l m : List (Nat × α)) : List (Nat × α) :=
  m.foldl (fun acc p => aset acc p.1 p.2) l

/-- The keys of an association list are pairwise distinct. -/
def NodupKeys {α : Type} (l : List (Nat × α)) : Prop :=
  (l.map Prod.fst).Nodup

/-! ### Overlay store, log change and writer (`LogOverlays`, `LogChange`,
`LogWriter`) -/

/-- `IndexLogOverlay`: slot → (record_id, modified_mask, chunk). -/
structure IndexLogOverlay where
  map : List (Nat × (Nat × Nat × List Nat))

/-- `ValueLogOverlay`: slot → (record_id, payload). -/
structure ValueLogOverlay where
  map : List (Nat × (Nat × List Nat))

/-- `LogOverlays`: the shared overlay store. -/
structure LogOverlays where
  index : List (Nat × IndexLogOverlay)
  value : List (Nat × ValueLogOverlay)

/-- `LogQuery::value` for `RwLock<LogOverlays>`: on a hit, copy
`min (dest.len()) (d.len())` bytes of the stored payload over the front of
`dest` and return `true`; on a miss leave `dest` unchanged and return
`false`.  Result is `(found, dest after the call)`. -/
def LogOverlays.valueQuery (o : LogOverlays) (table index : Nat) (dest : List Nat) :
    Bool × List Nat :=
  match (aget o.value table).bind (fun ov => (aget ov.map index).map (fun e => e.2)) with
  | some d =>
    let len := min dest.length d.length
    (true, d.take len ++ dest.drop len)
  | none => (false, dest)

/-- `LogQuery::with_index` for `RwLock<LogOverlays>`, returning the stored
chunk itself (the Rust code applies a continuation to it). -/
def LogOverlays.withIndex (o : LogOverlays) (table index : Nat) : Option (List Nat) :=
  (aget o.index table).bind (fun ov => (aget ov.map index).map (fun e => e.2.2))

/-- `Cleared`: the clear list accumulated by a `LogReader`. -/
structure Cleared where
  index : List (Nat × Nat)
  values : List (Nat × Nat)

/-- `LogChange`: a writer's accumulated local maps. -/
structure LogChange where
  local_index : List (Nat × IndexLogOverlay)
  local_values : List (Nat × ValueLogOverlay)
  record_id : Nat
  dropped_tables : List Nat

/-- `LogChange::new`. -/
def LogChange.new (record_id : Nat) : LogChange := ⟨[], [], record_id, []⟩

/-- `LogWriter::insert_index`: OR `1 << sub` into the mask of an existing
entry and overwrite its chunk, or create the entry; either way the entry is
tagged with the writer's record id. -/
def LogChange.insert_index (c : LogChange) (table index sub : Nat) (data : List Nat) :
    LogChange :=
  let ov := (aget c.local_index table).getD ⟨[]⟩
  let mask :=
    match aget ov.map index with
    | some e => Nat.lor e.2.1 (1 <<< sub)
    | none => 1 <<< sub
  { c with
    local_index := aset c.local_index table ⟨aset ov.map index (c.record_id, mask, data)⟩ }

/-- `LogWriter::insert_value`. -/
def LogChange.insert_value (c : LogChange) (table index : Nat) (data : List Nat) :
    LogChange :=
  let ov := (aget c.local_values table).getD ⟨[]⟩
  { c with local_values := aset c.local_values table ⟨aset ov.map index (c.record_id, data)⟩ }

/-- `LogWriter::drop_table`. -/
def LogChange.drop_table (c : LogChange) (id : Nat) : LogChange :=
  { c with dropped_tables := c.dropped_tables ++ [id] }

/-- One call on a `LogWriter`. -/
inductive WriterOp
  | insIdx (table index sub : Nat) (data : List Nat)
  | insVal (table index : Nat) (data : List Nat)
  | dropTab (id : Nat)

def applyOp (c : LogChange) : WriterOp → LogChange
  | .insIdx t i s d => c.insert_index t i s d
  | .insVal t i d => c.insert_value t i d
  | .dropTab id => c.drop_table id

/-- The `LogChange` drained from a writer created by `begin_record` with id
`record_id` after the given sequence of calls. -/
def buildChange (record_id : Nat) (ops : List WriterOp) : LogChange :=
  ops.foldl applyOp (LogChange.new record_id)

/-! ### `Log`: overlay and record-id counter operations -/

/-- The parts of the `Log` state the overlay/counter operations act on; the
file slots are modelled separately (`FlushState`, `CleanState` below). -/
structure LogState where
  overlays : LogOverlays
  next_record_id : Nat

/-- `Log::begin_record`: `fetch_add(1, Relaxed)` on the `AtomicU64` counter
(wrapping, hence the `% 2 ^ 64`); the previous value becomes the new record
id carried by the returned writer. -/
def beginRecord (s : LogState) : Nat × LogState :=
  (s.next_record_id, { s with next_record_id := (s.next_record_id + 1) % 2 ^ 64 })

/-- The overlay merge performed by `Log::end_record`:
`overlays.index.entry(id).or_default().map.extend(overlay.map)` for every
per-table map of the change, and the same for values. -/
def mergeStepIdx (acc : List (Nat × IndexLogOverlay)) (p : Nat × IndexLogOverlay) :
    List (Nat × IndexLogOverlay) :=
  aset acc p.1 ⟨aextend ((aget acc p.1).getD ⟨[]⟩).map p.2.map⟩

def mergeStepVal (acc : List (Nat × ValueLogOverlay)) (p : Nat × ValueLogOverlay) :
    List (Nat × ValueLogOverlay) :=
  aset acc p.1 ⟨aextend ((aget acc p.1).getD ⟨[]⟩).map p.2.map⟩

def mergeChange (o : LogOverlays) (c : LogChange) : LogOverlays :=
  { index := c.local_index.foldl mergeStepIdx o.index,
    value := c.local_values.foldl mergeStepVal o.value }

/-- `Log::end_record`, overlay-visible part: the `assert!(record_id + 1 ==
next_record_id)` is modelled as `Option` (`none` = panic; the `+ 1` wraps in
release mode, hence the `% 2 ^ 64`), then the change is merged into the
shared overlay. -/
def endRecord (s : LogState) (c : LogChange) : Option LogState :=
  if (c.record_id + 1) % 2 ^ 64 = s.next_record_id then
    some { s with overlays := mergeChange s.overlays c }
  else none

/-- Eviction of one clear-list slot inside `Log::end_read`: remove the
overlay entry only when its stored record id equals the enacted record's. -/
def evictSlot {α : Type} (getId : α → Nat) (m : List (Nat × α)) (index record_id : Nat) :
    List (Nat × α) :=
  match aget m index with
  | some e => if getId e = record_id then aremove m index else m
  | none => m

/-- `Log::end_read`: advance the record-id counter past `record_id` when
needed (the store of `record_id + 1` wraps in release mode), evict every
clear-list slot whose stored record id equals `record_id`, and drop index
per-table maps that are empty afterwards (`overlays.index.retain`). -/
def evictStepIdx (record_id : Nat) (acc : List (Nat × IndexLogOverlay)) (p : Nat × Nat) :
    List (Nat × IndexLogOverlay) :=
  match aget acc p.1 with
  | some ov => aset acc p.1 ⟨evictSlot (fun e => e.1) ov.map p.2 record_id⟩
  | none => acc

def evictStepVal (record_id : Nat) (acc : List (Nat × ValueLogOverlay)) (p : Nat × Nat) :
    List (Nat × ValueLogOverlay) :=
  match aget acc p.1 with
  | some ov => aset acc p.1 ⟨evictSlot (fun e => e.1) ov.map p.2 record_id⟩
  | none => acc

def endRead (s : LogState) (cleared : Cleared) (record_id : Nat) : LogState :=
  let next :=
    if record_id ≥ s.next_record_id then (record_id + 1) % 2 ^ 64 else s.next_record_id
  let idx := cleared.index.foldl (evictStepIdx record_id) s.overlays.index
  let val := cleared.values.foldl (evictStepVal record_id) s.overlays.value
  { overlays := { index := idx.filter (fun p => !p.2.map.isEmpty), value := val },
    next_record_id := next }

/-- Lookup through both levels of the index overlay:
`overlays.index.get(&table).and_then(|o| o.map.get(&index))`. -/
def overlayIdxGet (m : List (Nat × IndexLogOverlay)) (table index : Nat) :
    Option (Nat × Nat × List Nat) :=
  (aget m table).bind (fun ov => aget ov.map index)

/-- Lookup through both levels of the value overlay. -/
def overlayValGet (m : List (Nat × ValueLogOverlay)) (table index : Nat) :
    Option (Nat × List Nat) :=
  (aget m table).bind (fun ov => aget ov.map index)

/-- Well-formedness of a `LogChange` as maintained by `LogWriter`: all maps
have distinct keys (they model `HashMap`s) and every entry is tagged with the
change's record id. -/
def ChangeWF (c : LogChange) : Prop :=
  NodupKeys c.local_index ∧ NodupKeys c.local_values
  ∧ (∀ p ∈ c.local_index, NodupKeys p.2.map ∧ ∀ q ∈ p.2.map, q.2.1 = c.record_id)
  ∧ (∀ p ∈ c.local_values, NodupKeys p.2.map ∧ ∀ q ∈ p.2.map, q.2.1 = c.record_id)

/-- One `Log` operation touching the record-id counter. -/
inductive LogOp
  | begin
  | endReadOp (cleared : Cleared) (record_id : Nat)

def applyLogOp (s : LogState) : LogOp → LogState
  | .begin => (beginRecord s).2
  | .endReadOp c r => endRead s c r

def runLog (s : LogState) (ops : List LogOp) : LogState := ops.foldl applyLogOp s

/-! ### Record codec and `LogReader`

A log file is a byte list; the `BufReader` cursor is a position into it.
`LogReader` state carries the position, the bytes-read counter, the CRC
state, the validate flag and the clear list, exactly as the Rust struct. -/

/-- `LogAction`. -/
inductive LogAction
  | beginRecord
  | insertIndex (table index : Nat)
  | insertValue (table index : Nat)
  | dropTable (table : Nat)
  | endRecord
deriving DecidableEq

/-- The error kinds `LogReader` can produce: an I/O error (here always
unexpected EOF) or `Error::Corruption`. -/
inductive LogError
  | io
  | corruption (msg : String)
deriving DecidableEq

/-- `LogReader` plus its underlying buffered file. -/
structure ReaderState where
  file : List Nat
  pos : Nat
  record_id : Nat
  read_bytes : Nat
  crc : Nat
  validate : Bool
  clearedIndex : List (Nat × Nat)
  clearedValues : List (Nat × Nat)
deriving DecidableEq

/-- `LogReader::new` on a file whose cursor stands at `pos`. -/
def LogReader.new (file : List Nat) (pos : Nat) (validate : Bool) : ReaderState :=
  { file := file, pos := pos, record_id := 0, read_bytes := 0, crc := crcInit,
    validate := validate, clearedIndex := [], clearedValues := [] }

/-- `read_exact` on the file: consume `n` bytes at the cursor (`none` is the
I/O error on end of file). -/
def readExact (s : ReaderState) (n : Nat) : Option (List Nat × ReaderState) :=
  if s.pos + n ≤ s.file.length then
    some ((s.file.drop s.pos).take n, { s with pos := s.pos + n })
  else none

/-- The `read_buf` closure of `LogReader::next`: `read_exact`, count the
bytes, and feed the CRC when validating. -/
def readBuf (s : ReaderState) (n : Nat) : Option (List Nat × ReaderState) :=
  (readExact s n).map (fun r =>
    (r.1, { r.2 with read_bytes := r.2.read_bytes + n,
                     crc := if s.validate then crcUpd s.crc r.1 else s.crc }))

/-- The raw `read_exact` + `read_bytes += 4` used for the checksum field in
the `EndRecord` branch (no CRC update). -/
def readRaw (s : ReaderState) (n : Nat) : Option (List Nat × ReaderState) :=
  (readExact s n).map (fun r => (r.1, { r.2 with read_bytes := r.2.read_bytes + n }))

/-- `LogReader::read`: same behavior as `read_buf`, used by the enactor to
pull masks, sub-entries and value payloads. -/
def LogReader.read (s : ReaderState) (n : Nat) : Option (List Nat × ReaderState) :=
  readBuf s n

/-- `LogReader::next`. -/
def LogReader.next (s : ReaderState) : Except LogError (LogAction × ReaderState) :=
  match readBuf s 1 with
  | none => .error .io
  | some (tb, s1) =>
    match tb.headD 0 with
    | 1 =>
      match readBuf s1 8 with
      | none => .error .io
      | some (rb, s2) => .ok (.beginRecord, { s2 with record_id := fromLE rb })
    | 2 =>
      match readBuf s1 2 with
      | none => .error .io
      | some (t2, s2) =>
        match readBuf s2 8 with
        | none => .error .io
        | some (i8, s3) =>
          .ok (.insertIndex (fromLE t2) (fromLE i8),
            { s3 with clearedIndex := s3.clearedIndex ++ [(fromLE t2, fromLE i8)] })
    | 3 =>
      match readBuf s1 2 with
      | none => .error .io
      | some (t2, s2) =>
        match readBuf s2 8 with
        | none => .error .io
        | some (i8, s3) =>
          .ok (.insertValue (fromLE t2) (fromLE i8),
            { s3 with clearedValues := s3.clearedValues ++ [(fromLE t2, fromLE i8)] })
    | 4 =>
      match readRaw s1 4 with
      | none => .error .io
      | some (cb, s2) =>
        if s.validate then
          let expected := crcFinalize s2.crc
          let s3 := { s2 with crc := crcInit }
          if fromLE cb ≠ expected then .error (.corruption "Log record CRC-32 mismatch")
          else .ok (.endRecord, s3)
        else .ok (.endRecord, s2)
    | 5 =>
      match readBuf s1 2 with
      | none => .error .io
      | some (t2, s2) => .ok (.dropTable (fromLE t2), s2)
    | _ => .error (.corruption "Bad log entry type")

/-- `LogReader::reset`: seek back `read_bytes` bytes and clear the cursor's
accumulated record id, byte count, CRC state and clear list. -/
def LogReader.reset (s : ReaderState) : ReaderState :=
  { s with pos := s.pos - s.read_bytes, read_bytes := 0, record_id := 0,
           crc := crcInit, clearedIndex := [], clearedValues := [] }

/-- One successful cursor call: a `next` or a `read` that returned without
error. -/
inductive ReaderStep : ReaderState → ReaderState → Prop
  | next (s s' : ReaderState) (a : LogAction) (h : LogReader.next s = .ok (a, s')) :
      ReaderStep s s'
  | read (s s' : ReaderState) (n : Nat) (bs : List Nat)
      (h : LogReader.read s n = some (bs, s')) : ReaderStep s s'

/-- States reachable from `s0` by successful `next`/`read` calls. -/
inductive Reached : ReaderState → ReaderState → Prop
  | refl (s : ReaderState) : Reached s s
  | step (s1 s2 s3 : ReaderState) (h1 : Reached s1 s2) (h2 : ReaderStep s2 s3) :
      Reached s1 s3

/-- One serialized entry of a record. -/
inductive Ent
  | idx (table index mask : Nat) (chunk : List Nat)
  | val (table index : Nat) (data : List Nat)
  | drop (table : Nat)
deriving DecidableEq

/-- Byte encoding of one entry, as emitted by `LogChange::to_file`. -/
def encEnt : Ent → List Nat
  | .idx t i mask chunk =>
    2 :: (leBytes 2 t ++ leBytes 8 i ++ leBytes 8 mask ++ subEntries mask chunk)
  | .val t i data => 3 :: (leBytes 2 t ++ leBytes 8 i ++ data)
  | .drop t => 5 :: leBytes 2 t

/-- The entries of a `LogChange` in serialization order: all index entries
(outer map iteration order, then inner), then all value entries, then the
dropped tables. -/
def LogChange.entries (c : LogChange) : List Ent :=
  (c.local_index.flatMap (fun p => p.2.map.map (fun q => Ent.idx p.1 q.1 q.2.2.1 q.2.2.2)))
    ++ (c.local_values.flatMap (fun p => p.2.map.map (fun q => Ent.val p.1 q.1 q.2.2)))
    ++ c.dropped_tables.map Ent.drop

/-- `LogChange::to_file`: the serialized bytes of the record.  The `write`
closure feeds the CRC with every byte up to and including the `END` type
byte `4`; the checksum is then appended without updating the CRC. -/
def LogChange.toFile (c : LogChange) : List Nat :=
  let body := 1 :: (leBytes 8 c.record_id ++ (c.entries.flatMap encEnt) ++ [4])
  body ++ leBytes 4 (crc32 body)

/-- The value-payload lengths of a record in order — what the enactor knows
from value-table metadata (spec §4.1). -/
def lensOf : List Ent → List Nat
  | [] => []
  | .val _ _ d :: es => d.length :: lensOf es
  | .idx _ _ _ _ :: es => lensOf es
  | .drop _ :: es => lensOf es

/-- A decoded entry: action plus the payload bytes the enactor pulls. -/
inductive Dec
  | idx (table index mask : Nat) (payload : List Nat)
  | val (table index : Nat) (payload : List Nat)
  | drop (table : Nat)
deriving DecidableEq

/-- The decoding a faithful enactor obtains for each serialized entry. -/
def decOf : List Ent → List Dec
  | [] => []
  | .idx t i m ch :: es => .idx t i m (subEntries m ch) :: decOf es
  | .val t i d :: es => .val t i d :: decOf es
  | .drop t :: es => .drop t :: decOf es

/-- Modelled from the spec: the enactor's consumption protocol for the body
of one record (spec §4.1 and §4.5) — the enacting code (`db.rs`/`index.rs`)
is not among the sources.  After `InsertIndex` it `read`s the 8-byte mask
and then `popcount(mask)` sub-entries of `ENTRY_BYTES` each; after
`InsertValue` it `read`s the payload, whose length it knows from the value
table (supplied here as `lens`); it stops at `EndRecord`.  `fuel` bounds the
number of actions. -/
def decodeBody : Nat → ReaderState → List Nat → Except LogError (List Dec × ReaderState)
  | 0, _, _ => .error .io
  | fuel + 1, s, lens =>
    match LogReader.next s with
    | .error e => .error e
    | .ok (.endRecord, s') => .ok ([], s')
    | .ok (.beginRecord, _) => .error (.corruption "Bad log record structure")
    | .ok (.insertIndex t i, s') =>
      match LogReader.read s' 8 with
      | none => .error .io
      | some (mb, s1) =>
        match LogReader.read s1 (popcount (fromLE mb) * ENTRY_BYTES) with
        | none => .error .io
        | some (pb, s2) =>
          match decodeBody fuel s2 lens with
          | .error e => .error e
          | .ok (ds, sf) => .ok (.idx t i (fromLE mb) pb :: ds, sf)
    | .ok (.insertValue t i, s') =>
      match lens with
      | [] => .error .io
      | n :: lens' =>
        match LogReader.read s' n with
        | none => .error .io
        | some (pb, s1) =>
          match decodeBody fuel s1 lens' with
          | .error e => .error e
          | .ok (ds, sf) => .ok (.val t i pb :: ds, sf)
    | .ok (.dropTable t, s') =>
      match decodeBody fuel s' lens with
      | .error e => .error e
      | .ok (ds, sf) => .ok (.drop t :: ds, sf)

/-- Modelled from the spec: reading a whole record from the cursor — first
action must be `BeginRecord` (as `read_next` enforces with `Bad log record
structure`), then the body up to `EndRecord`. -/
def decodeRecord (fuel : Nat) (s : ReaderState) (lens : List Nat) :
    Except LogError (Nat × List Dec) :=
  match LogReader.next s with
  | .error e => .error e
  | .ok (.beginRecord, s') =>
    match decodeBody fuel s' lens with
    | .error e => .error e
    | .ok (ds, _) => .ok (s'.record_id, ds)
  | .ok (_, _) => .error (.corruption "Bad log record structure")

/-- Well-formed serialized entry: ids fit their byte widths, the mask is a
64-bit value, the chunk is a full `CHUNK_BYTES` block and payloads are
bytes. -/
def EntWF : Ent → Prop
  | .idx t i m ch => t < 2 ^ 16 ∧ i < 2 ^ 64 ∧ m < 2 ^ 64 ∧ ch.length = CHUNK_BYTES
      ∧ ∀ b ∈ ch, b < 256
  | .val t i d => t < 2 ^ 16 ∧ i < 2 ^ 64 ∧ ∀ b ∈ d, b < 256
  | .drop t => t < 2 ^ 16

/-- Well-formed `LogChange` for serialization. -/
def ChangeEncWF (c : LogChange) : Prop :=
  c.record_id < 2 ^ 64 ∧ ∀ e ∈ c.entries, EntWF e

/-- Test vector: a full chunk of byte `1`. -/
def exampleChunk : List Nat := List.replicate CHUNK_BYTES 1

/-- Test vector: a change with one index entry (mask `0b100001`), one value
entry and one dropped table, record id 9. -/
def exampleChange : LogChange :=
  { local_index := [(4, ⟨[(6, (9, 33, exampleChunk))]⟩)],
    local_values := [(2, ⟨[(5, (9, [7, 7]))]⟩)],
    record_id := 9,
    dropped_tables := [3] }

/-! ### `Log`: file-slot rotation (`flush_one`), pool cleanup (`clean_logs`)
and directory opening (`Log::open`)

Files are modelled by plain data: an id paired with a cursor position or a
length; file contents only matter for `Log::open`, where a file is a byte
list. -/

/-- `MAX_LOG_POOL_SIZE` (log.rs line 29). -/
def MAX_LOG_POOL_SIZE : Nat := 16

/-- `ReadingState`. -/
inductive ReadingState
  | reading
  | idle
deriving DecidableEq

/-- The file-rotation part of the `Log` state, acted on by `flush_one`:
the `flushing` and `appending` slots hold `(id, cursor/size)` pairs, the
`reading` slot an `(id, cursor)` pair, and the cleanup queue the ids moved
out of the reading slot. -/
structure FlushState where
  flushing : Option (Nat × Nat)
  reading : Option (Nat × Nat)
  reading_state : ReadingState
  cleanup_queue : List Nat
  appending : Option (Nat × Nat)
deriving DecidableEq

/-- `Log::flush_one`. The `done_reading_cv` wait is modelled as `none`: the
call blocks (until the enactor signals `Idle`) exactly when the flushing
slot is occupied while the reading state is still `Reading`. Note that the
whole reading→cleanup and flushing→reading rotation happens only inside the
`if flushing.is_some()` branch of the source. The appending slot is moved
into the flushing slot when the appended size exceeds both 0 and
`min_size`; the result carries the `(flushing.is_some(), read_next,
cleanup)` triple the source returns. -/
def flushOne (s : FlushState) (min_size : Nat) :
    Option (FlushState × Bool × Bool × Bool) :=
  if s.flushing.isSome ∧ s.reading_state = ReadingState.reading then none
  else
    let step1 :=
      match s.flushing with
      | none => (s, false, false)
      | some f =>
        match s.reading with
        | some r =>
          ({ s with reading := some (f.1, 0),
                    reading_state := ReadingState.reading,
                    cleanup_queue := s.cleanup_queue ++ [r.1],
                    flushing := none }, true, true)
        | none =>
          ({ s with reading := some (f.1, 0),
                    reading_state := ReadingState.reading,
                    flushing := none }, true, false)
    let s1 := step1.1
    let cur_size := (s1.appending.map Prod.snd).getD 0
    let s2 :=
      if 0 < cur_size ∧ min_size < cur_size then
        { s1 with appending := none, flushing := s1.appending }
      else s1
    some (s2, s2.flushing.isSome, step1.2.1, step1.2.2)

/-- The pool-cleanup part of the `Log` state, acted on by `clean_logs`:
queue and pool entries are `(id, length)` pairs, and `deleted` records the
ids passed to `drop_log` (files unlinked from disk). -/
structure CleanState where
  cleanup_queue : List (Nat × Nat)
  log_pool : List (Nat × Nat)
  deleted : List Nat
deriving DecidableEq

/-- `Log::clean_logs(count)`: drain the first `count` queue entries
(`VecDeque::drain(0..count)` panics when `count` exceeds the queue length,
modelled as `none`), truncate each drained file to length 0, extend the
pool with them, sort the pool ascending by id (`sort_by_key` is stable, as
is `mergeSort`), and when the pool exceeds `MAX_LOG_POOL_SIZE` drain and
unlink the excess tail; returns whether the queue is still non-empty. -/
def cleanLogs (s : CleanState) (count : Nat) : Option (CleanState × Bool) :=
  if count ≤ s.cleanup_queue.length then
    let cleaned := (s.cleanup_queue.take count).map (fun p : Nat × Nat => (p.1, (0 : Nat)))
    let pool := (s.log_pool ++ cleaned).mergeSort (fun a b => a.1 ≤ b.1)
    some ({ cleanup_queue := s.cleanup_queue.drop count,
            log_pool := pool.take MAX_LOG_POOL_SIZE,
            deleted := s.deleted ++ (pool.drop MAX_LOG_POOL_SIZE).map Prod.fst },
          !(s.cleanup_queue.drop count).isEmpty)
  else none

/-- A directory entry already matched against the `log<N>` name pattern in
`Log::open`: the parsed id and the file's bytes. -/
structure DirEntry where
  id : Nat
  content : List Nat
deriving DecidableEq

/-- `Log::open_log_file`: a zero-length file yields no record id; otherwise
the first record id is read from bytes 1..9 (`read_exact` of 9 bytes fails
with an I/O error, `.error ()`, on a non-empty file shorter than 9 bytes;
the leading type byte is not inspected). -/
def openLogFile (content : List Nat) : Except Unit (Option Nat) :=
  if content.length = 0 then .ok none
  else if content.length < 9 then .error ()
  else .ok (some (fromLE ((content.drop 1).take 8)))

/-- One directory entry folded by `Log::open`: the accumulator carries the
collected `(log id, first record id)` pairs, the running `max_log_id` (only
updated for non-empty files) and the ids of deleted zero-length files. -/
def openAcc (acc : List (Nat × Nat) × Nat × List Nat) (e : DirEntry) :
    Except Unit (List (Nat × Nat) × Nat × List Nat) :=
  match openLogFile e.content with
  | .error u => .error u
  | .ok none => .ok (acc.1, acc.2.1, acc.2.2 ++ [e.id])
  | .ok (some rid) => .ok (acc.1 ++ [(e.id, rid)], max acc.2.1 e.id, acc.2.2)

/-- The `for entry in read_dir` loop of `Log::open`, with `?`-propagation
of the I/O error. -/
def openFold : List DirEntry → (List (Nat × Nat) × Nat × List Nat) →
    Except Unit (List (Nat × Nat) × Nat × List Nat)
  | [], acc => .ok acc
  | e :: tl, acc =>
    match openAcc acc e with
    | .error u => .error u
    | .ok acc2 => openFold tl acc2

/-- The outcome of `Log::open` that the replay machinery observes. -/
structure OpenResult where
  replay_queue : List (Nat × Nat)
  removed : List Nat
  next_log_id : Nat
  next_record_id : Nat
deriving DecidableEq

/-- `Log::open` over the already-name-matched entries of the directory:
collect `(log id, first record id)` pairs of non-empty files, delete
zero-length files, sort the queue ascending by first record id, set
`next_log_id` to 0 when no non-empty log was found and to `max_log_id + 1`
otherwise, and start the record-id counter at 1. -/
def openLog (dir : List DirEntry) : Except Unit OpenResult :=
  match openFold dir ([], 0, []) with
  | .error u => .error u
  | .ok r =>
    let logs := r.1.mergeSort (fun a b => a.2 ≤ b.2)
    .ok { replay_queue := logs,
          removed := r.2.2,
          next_log_id := if logs.isEmpty then 0 else r.2.1 + 1,
          next_record_id := 1 }

/-- Test vector: a full chunk of byte `7`. -/
def chunkA : List Nat := List.replicate CHUNK_BYTES 7

/-- Test vector: a full chunk of byte `8`. -/
def chunkB : List Nat := List.replicate CHUNK_BYTES 8

-- ===== DEFINITIONS END / THEOREMS BEGIN =====

theorem leBytes_length (w n : Nat) : (leBytes w n).length = w := by
  induction w generalizing n with
  | zero => rfl
  | succ w ih => simp [leBytes, ih]

theorem leBytes_lt (w n : Nat) : ∀ b ∈ leBytes w n, b < 256 := by
  induction w generalizing n with
  | zero => simp [leBytes]
  | succ w ih =>
    intro b hb
    simp only [leBytes, List.mem_cons] at hb
    rcases hb with h | h
    · omega
    · exact ih _ _ h

theorem fromLE_leBytes (w n : Nat) : fromLE (leBytes w n) = n % 2 ^ (8 * w) := by
  induction w generalizing n with
  | zero => simp [leBytes, fromLE, Nat.mod_one]
  | succ w ih =>
    have h256 : (2 : Nat) ^ (8 * (w + 1)) = 256 * 2 ^ (8 * w) := by ring
    simp only [leBytes, fromLE, List.foldr_cons]
    have : (leBytes w (n / 256)).foldr (fun b acc => b + 256 * acc) 0 = fromLE (leBytes w (n / 256)) := rfl
    rw [this, ih, h256, Nat.mod_mul]

theorem fromLE_leBytes_of_lt (w n : Nat) (h : n < 2 ^ (8 * w)) : fromLE (leBytes w n) = n := by
  rw [fromLE_leBytes, Nat.mod_eq_of_lt h]

theorem crcUpd_append (s : Nat) (b1 b2 : List Nat) :
    crcUpd s (b1 ++ b2) = crcUpd (crcUpd s b1) b2 := by
  simp [crcUpd, List.foldl_append]

theorem crcRound_lt (x : Nat) (h : x < 2 ^ 32) : crcRound x < 2 ^ 32 := by
  unfold crcRound
  split
  · exact Nat.xor_lt_two_pow (by omega) (by norm_num)
  · omega

theorem crcRounds_lt (k x : Nat) (h : x < 2 ^ 32) : crcRounds k x < 2 ^ 32 := by
  induction k generalizing x with
  | zero => exact h
  | succ k ih => exact ih _ (crcRound_lt _ h)

theorem crcByte_lt (s b : Nat) (hs : s < 2 ^ 32) (hb : b < 256) : crcByte s b < 2 ^ 32 :=
  crcRounds_lt _ _ (Nat.xor_lt_two_pow hs (by omega))

theorem crcUpd_lt (s : Nat) (bs : List Nat) (hs : s < 2 ^ 32) (hb : ∀ b ∈ bs, b < 256) :
    crcUpd s bs < 2 ^ 32 := by
  induction bs generalizing s with
  | nil => exact hs
  | cons b bs ih =>
    exact ih _ (crcByte_lt _ _ hs (hb b (by simp))) (fun x hx => hb x (by simp [hx]))

theorem crc32_lt (bs : List Nat) (hb : ∀ b ∈ bs, b < 256) : crc32 bs < 2 ^ 32 := by
  unfold crc32 crcFinalize
  exact Nat.xor_lt_two_pow (crcUpd_lt _ _ (by norm_num [crcInit]) hb) (by norm_num)

theorem lowBitAux_congr : ∀ f g n, 0 < n → n ≤ f → n ≤ g → lowBitAux f n = lowBitAux g n := by
  intro f
  induction f with
  | zero => intro g n hn hf _; omega
  | succ f ih =>
    intro g n hn hf hg
    obtain ⟨g, rfl⟩ : ∃ g', g = g' + 1 := ⟨g - 1, by omega⟩
    simp only [lowBitAux]
    by_cases h : n % 2 = 1
    · simp [h]
    · simp only [h, if_false]
      have ihg : lowBitAux f (n / 2) = lowBitAux g (n / 2) := by
        apply ih <;> omega
      omega

theorem lowBit_odd (n : Nat) (h : n % 2 = 1) : lowBit n = 0 := by
  have hn : 0 < n := by omega
  obtain ⟨f, rfl⟩ : ∃ f, n = f + 1 := ⟨n - 1, by omega⟩
  simp [lowBit, lowBitAux, h]

theorem lowBit_even (n : Nat) (h0 : n ≠ 0) (h : n % 2 = 0) : lowBit n = lowBit (n / 2) + 1 := by
  obtain ⟨f, rfl⟩ : ∃ f, n = f + 1 := ⟨n - 1, by omega⟩
  show lowBitAux (f + 1) (f + 1) = _
  have step : lowBitAux (f + 1) (f + 1)
      = if (f + 1) % 2 = 1 then 0 else lowBitAux f ((f + 1) / 2) + 1 := rfl
  rw [step, if_neg (by omega : ¬ (f + 1) % 2 = 1)]
  have : lowBitAux f ((f + 1) / 2) = lowBitAux ((f + 1) / 2) ((f + 1) / 2) := by
    apply lowBitAux_congr <;> omega
  simp [lowBit, this]

theorem popcountAux_zero : ∀ f, popcountAux f 0 = 0 := by
  intro f; cases f <;> simp [popcountAux]

theorem popcountAux_congr : ∀ f g n, n ≤ f → n ≤ g → popcountAux f n = popcountAux g n := by
  intro f
  induction f with
  | zero =>
    intro g n hf _
    have : n = 0 := by omega
    subst this
    simp [popcountAux_zero]
  | succ f ih =>
    intro g n hf hg
    by_cases h0 : n = 0
    · subst h0; simp [popcountAux_zero]
    obtain ⟨g, rfl⟩ : ∃ g', g = g' + 1 := ⟨g - 1, by omega⟩
    simp only [popcountAux, if_neg h0]
    have : popcountAux f (n / 2) = popcountAux g (n / 2) := by
      apply ih <;> omega
    omega

theorem popcount_rec (n : Nat) (h : n ≠ 0) : popcount n = n % 2 + popcount (n / 2) := by
  obtain ⟨f, rfl⟩ : ∃ f, n = f + 1 := ⟨n - 1, by omega⟩
  show popcountAux (f + 1) (f + 1) = _
  simp only [popcountAux, if_neg h]
  have : popcountAux f ((f + 1) / 2) = popcountAux ((f + 1) / 2) ((f + 1) / 2) := by
    apply popcountAux_congr <;> omega
  simp [popcount, this]

theorem bitsAscAux_congr : ∀ f g mask, mask ≤ f → mask ≤ g → bitsAscAux f mask = bitsAscAux g mask := by
  intro f
  induction f with
  | zero =>
    intro g mask hf _
    have : mask = 0 := by omega
    subst this
    cases g <;> simp [bitsAscAux]
  | succ f ih =>
    intro g mask hf hg
    by_cases h0 : mask = 0
    · subst h0; cases g <;> simp [bitsAscAux]
    obtain ⟨g, rfl⟩ : ∃ g', g = g' + 1 := ⟨g - 1, by omega⟩
    simp only [bitsAscAux, if_neg h0]
    have hp : 0 < 2 ^ lowBit mask := Nat.two_pow_pos _
    have : bitsAscAux f (mask - 2 ^ lowBit mask) = bitsAscAux g (mask - 2 ^ lowBit mask) := by
      apply ih <;> omega
    simp [this]

theorem bitsAsc_zero : bitsAsc 0 = [] := rfl

theorem bitsAsc_rec (mask : Nat) (h : mask ≠ 0) :
    bitsAsc mask = lowBit mask :: bitsAsc (mask - 2 ^ lowBit mask) := by
  obtain ⟨f, rfl⟩ : ∃ f, mask = f + 1 := ⟨mask - 1, by omega⟩
  show bitsAscAux (f + 1) (f + 1) = _
  simp only [bitsAscAux, if_neg h]
  have hp : 0 < 2 ^ lowBit (f + 1) := Nat.two_pow_pos _
  have : bitsAscAux f (f + 1 - 2 ^ lowBit (f + 1))
      = bitsAscAux (f + 1 - 2 ^ lowBit (f + 1)) (f + 1 - 2 ^ lowBit (f + 1)) := by
    apply bitsAscAux_congr <;> omega
  simp [bitsAsc, this]

theorem subEntriesAux_congr (chunk : List Nat) :
    ∀ f g mask, mask ≤ f → mask ≤ g → subEntriesAux chunk f mask = subEntriesAux chunk g mask := by
  intro f
  induction f with
  | zero =>
    intro g mask hf _
    have : mask = 0 := by omega
    subst this
    cases g <;> simp [subEntriesAux]
  | succ f ih =>
    intro g mask hf hg
    by_cases h0 : mask = 0
    · subst h0; cases g <;> simp [subEntriesAux]
    obtain ⟨g, rfl⟩ : ∃ g', g = g' + 1 := ⟨g - 1, by omega⟩
    simp only [subEntriesAux, if_neg h0]
    have hp : 0 < 2 ^ lowBit mask := Nat.two_pow_pos _
    have : subEntriesAux chunk f (mask - 2 ^ lowBit mask)
        = subEntriesAux chunk g (mask - 2 ^ lowBit mask) := by
      apply ih <;> omega
    simp [this]

theorem subEntries_zero (chunk : List Nat) : subEntries 0 chunk = [] := rfl

theorem subEntries_rec (mask : Nat) (chunk : List Nat) (h : mask ≠ 0) :
    subEntries mask chunk =
      (chunk.drop (lowBit mask * ENTRY_BYTES)).take ENTRY_BYTES
        ++ subEntries (mask - 2 ^ lowBit mask) chunk := by
  obtain ⟨f, rfl⟩ : ∃ f, mask = f + 1 := ⟨mask - 1, by omega⟩
  show subEntriesAux chunk (f + 1) (f + 1) = _
  simp only [subEntriesAux, if_neg h]
  have hp : 0 < 2 ^ lowBit (f + 1) := Nat.two_pow_pos _
  have : subEntriesAux chunk f (f + 1 - 2 ^ lowBit (f + 1))
      = subEntriesAux chunk (f + 1 - 2 ^ lowBit (f + 1)) (f + 1 - 2 ^ lowBit (f + 1)) := by
    apply subEntriesAux_congr <;> omega
  simp [subEntries, this]

theorem popcount_zero : popcount 0 = 0 := rfl

theorem popcount_double (x : Nat) : popcount (2 * x) = popcount x := by
  by_cases h : x = 0
  · subst h; rfl
  · rw [popcount_rec (2 * x) (by omega)]
    rw [Nat.mul_mod_right, Nat.mul_div_cancel_left x (by norm_num)]
    omega

theorem testBit_lowBit (n : Nat) (h : n ≠ 0) : n.testBit (lowBit n) = true := by
  induction n using Nat.strong_induction_on with
  | _ n ih =>
    by_cases hp : n % 2 = 1
    · rw [lowBit_odd n hp, Nat.testBit_zero]; simp [hp]
    · have h2 : n % 2 = 0 := by omega
      rw [lowBit_even n h h2, Nat.testBit_succ]
      exact ih (n / 2) (by omega) (by omega)

theorem testBit_below_lowBit (n : Nat) (h : n ≠ 0) :
    ∀ j, j < lowBit n → n.testBit j = false := by
  induction n using Nat.strong_induction_on with
  | _ n ih =>
    intro j hj
    by_cases hp : n % 2 = 1
    · rw [lowBit_odd n hp] at hj; omega
    · have h2 : n % 2 = 0 := by omega
      rw [lowBit_even n h h2] at hj
      cases j with
      | zero => rw [Nat.testBit_zero]; simp [h2]
      | succ k =>
        rw [Nat.testBit_succ]
        exact ih (n / 2) (by omega) (by omega) k (by omega)

theorem testBit_sub_lowBit (n : Nat) (h : n ≠ 0) :
    ∀ j, (n - 2 ^ lowBit n).testBit j = if j = lowBit n then false else n.testBit j := by
  induction n using Nat.strong_induction_on with
  | _ n ih =>
    intro j
    by_cases hp : n % 2 = 1
    · rw [lowBit_odd n hp, pow_zero]
      cases j with
      | zero =>
        rw [if_pos rfl, Nat.testBit_zero]
        simp only [decide_eq_false_iff_not]
        omega
      | succ k =>
        rw [if_neg (by omega), Nat.testBit_succ, Nat.testBit_succ]
        congr 1
        omega
    · have h2 : n % 2 = 0 := by omega
      rw [lowBit_even n h h2]
      have hpos : 0 < 2 ^ lowBit (n / 2) := Nat.two_pow_pos _
      have h4 : n - 2 ^ (lowBit (n / 2) + 1) = 2 * (n / 2 - 2 ^ lowBit (n / 2)) := by
        rw [pow_succ]
        omega
      cases j with
      | zero =>
        rw [if_neg (by omega), h4, Nat.testBit_zero, Nat.testBit_zero]
        simp only [decide_eq_decide]
        omega
      | succ k =>
        rw [h4, Nat.testBit_succ, Nat.mul_div_cancel_left _ (by norm_num : (0:Nat) < 2)]
        rw [ih (n / 2) (by omega) (by omega) k, Nat.testBit_succ]
        by_cases hk : k = lowBit (n / 2)
        · rw [if_pos hk, if_pos (by omega)]
        · rw [if_neg hk, if_neg (by omega)]

theorem popcount_sub_lowBit (n : Nat) (h : n ≠ 0) :
    popcount n = popcount (n - 2 ^ lowBit n) + 1 := by
  induction n using Nat.strong_induction_on with
  | _ n ih =>
    by_cases hp : n % 2 = 1
    · rw [lowBit_odd n hp, pow_zero, popcount_rec n h, hp]
      by_cases hn1 : n - 1 = 0
      · have hn : n = 1 := by omega
        subst hn
        rfl
      · rw [popcount_rec (n - 1) hn1]
        have e1 : (n - 1) % 2 = 0 := by omega
        have e2 : (n - 1) / 2 = n / 2 := by omega
        rw [e1, e2]
        omega
    · have h2 : n % 2 = 0 := by omega
      have hhalf : n / 2 ≠ 0 := by omega
      have hpos : 0 < 2 ^ lowBit (n / 2) := Nat.two_pow_pos _
      rw [lowBit_even n h h2]
      have h4 : n - 2 ^ (lowBit (n / 2) + 1) = 2 * (n / 2 - 2 ^ lowBit (n / 2)) := by
        rw [pow_succ]
        omega
      rw [popcount_rec n h, h2, h4, popcount_double]
      rw [ih (n / 2) (by omega) hhalf]
      omega

theorem mem_bitsAsc (n : Nat) : ∀ j, j ∈ bitsAsc n ↔ n.testBit j = true := by
  induction n using Nat.strong_induction_on with
  | _ n ih =>
    intro j
    by_cases h : n = 0
    · subst h; simp [bitsAsc_zero, Nat.zero_testBit]
    · have hle : 2 ^ lowBit n ≤ n := Nat.testBit_implies_ge (testBit_lowBit n h)
      have hpos : 0 < 2 ^ lowBit n := Nat.two_pow_pos _
      have hlt : n - 2 ^ lowBit n < n := by omega
      rw [bitsAsc_rec n h]
      simp only [List.mem_cons, ih _ hlt, testBit_sub_lowBit n h]
      constructor
      · rintro (rfl | hm)
        · exact testBit_lowBit n h
        · by_cases hj : j = lowBit n
          · rw [if_pos hj] at hm; cases hm
          · rwa [if_neg hj] at hm
      · intro ht
        by_cases hj : j = lowBit n
        · exact Or.inl hj
        · exact Or.inr (by rwa [if_neg hj])

theorem bitsAsc_sorted (n : Nat) : (bitsAsc n).Pairwise (· < ·) := by
  induction n using Nat.strong_induction_on with
  | _ n ih =>
    by_cases h : n = 0
    · subst h; simp [bitsAsc_zero]
    · have hle : 2 ^ lowBit n ≤ n := Nat.testBit_implies_ge (testBit_lowBit n h)
      have hpos : 0 < 2 ^ lowBit n := Nat.two_pow_pos _
      have hlt : n - 2 ^ lowBit n < n := by omega
      rw [bitsAsc_rec n h]
      refine List.Pairwise.cons ?_ (ih _ hlt)
      intro j hj
      rw [mem_bitsAsc _ j, testBit_sub_lowBit n h j] at hj
      by_cases hj2 : j = lowBit n
      · rw [if_pos hj2] at hj; cases hj
      · rw [if_neg hj2] at hj
        rcases Nat.lt_or_ge (lowBit n) j with h1 | h1
        · exact h1
        · have : j < lowBit n := by omega
          rw [testBit_below_lowBit n h j this] at hj
          cases hj

theorem bitsAsc_length (n : Nat) : (bitsAsc n).length = popcount n := by
  induction n using Nat.strong_induction_on with
  | _ n ih =>
    by_cases h : n = 0
    · subst h; simp [bitsAsc_zero, popcount_zero]
    · have hle : 2 ^ lowBit n ≤ n := Nat.testBit_implies_ge (testBit_lowBit n h)
      have hpos : 0 < 2 ^ lowBit n := Nat.two_pow_pos _
      have hlt : n - 2 ^ lowBit n < n := by omega
      rw [bitsAsc_rec n h, popcount_sub_lowBit n h]
      simp [ih _ hlt]

theorem subEntries_eq_flatMap (mask : Nat) (chunk : List Nat) :
    subEntries mask chunk
      = (bitsAsc mask).flatMap (fun i => (chunk.drop (i * ENTRY_BYTES)).take ENTRY_BYTES) := by
  induction mask using Nat.strong_induction_on with
  | _ mask ih =>
    by_cases h : mask = 0
    · subst h; simp [subEntries_zero, bitsAsc_zero]
    · have hle : 2 ^ lowBit mask ≤ mask := Nat.testBit_implies_ge (testBit_lowBit mask h)
      have hpos : 0 < 2 ^ lowBit mask := Nat.two_pow_pos _
      have hlt : mask - 2 ^ lowBit mask < mask := by omega
      rw [subEntries_rec mask chunk h, bitsAsc_rec mask h, List.flatMap_cons, ih _ hlt]

theorem bitsAsc_lt_64 (mask : Nat) (h : mask < 2 ^ 64) : ∀ j ∈ bitsAsc mask, j < 64 := by
  intro j hj
  rw [mem_bitsAsc] at hj
  by_contra h64
  have hlt : mask < 2 ^ j :=
    lt_of_lt_of_le h (Nat.pow_le_pow_right (by norm_num) (by omega))
  rw [Nat.testBit_lt_two_pow hlt] at hj
  cases hj

theorem subEntries_length (mask : Nat) (chunk : List Nat) (hm : mask < 2 ^ 64)
    (hc : chunk.length = CHUNK_BYTES) :
    (subEntries mask chunk).length = popcount mask * ENTRY_BYTES := by
  rw [subEntries_eq_flatMap, List.length_flatMap]
  have hmap : (bitsAsc mask).map
        (List.length ∘ fun i => (chunk.drop (i * ENTRY_BYTES)).take ENTRY_BYTES)
      = (bitsAsc mask).map (fun _ => ENTRY_BYTES) := by
    apply List.map_congr_left
    intro j hj
    have hj64 : j < 64 := bitsAsc_lt_64 mask hm j hj
    simp only [Function.comp_apply, List.length_take, List.length_drop, hc]
    simp only [CHUNK_BYTES, ENTRY_BYTES]
    omega
  rw [hmap]
  simp [bitsAsc_length, Nat.mul_comm]

/-! ### Association-list lemmas -/

theorem aget_cons {α : Type} (k0 : Nat) (v0 : α) (t : List (Nat × α)) (k : Nat) :
    aget ((k0, v0) :: t) k = if k0 = k then some v0 else aget t k := by
  by_cases h : k0 = k <;> simp [aget, List.find?_cons, h]

theorem aget_mem {α : Type} (l : List (Nat × α)) (k : Nat) (v : α)
    (h : aget l k = some v) : (k, v) ∈ l := by
  induction l with
  | nil => cases h
  | cons p t ih =>
    obtain ⟨k0, v0⟩ := p
    rw [aget_cons] at h
    by_cases h0 : k0 = k
    · rw [if_pos h0] at h
      cases h
      simp [h0]
    · rw [if_neg h0] at h
      exact List.mem_cons_of_mem _ (ih h)

theorem aget_eq_none {α : Type} (l : List (Nat × α)) (k : Nat)
    (h : ∀ p ∈ l, p.1 ≠ k) : aget l k = none := by
  induction l with
  | nil => rfl
  | cons p t ih =>
    obtain ⟨k0, v0⟩ := p
    rw [aget_cons, if_neg (h (k0, v0) (by simp))]
    exact ih (fun q hq => h q (by simp [hq]))

theorem aget_map_replace_ne {α : Type} (l : List (Nat × α)) (k : Nat) (v : α) (j : Nat)
    (hj : ¬ j = k) :
    aget (l.map (fun p => if p.1 == k then (k, v) else p)) j = aget l j := by
  induction l with
  | nil => rfl
  | cons p t ih =>
    obtain ⟨k0, v0⟩ := p
    have hhead : ((k0, v0) :: t).map (fun p => if p.1 == k then (k, v) else p)
        = (if k0 = k then (k, v) else (k0, v0))
          :: t.map (fun p => if p.1 == k then (k, v) else p) := by
      by_cases h : k0 = k <;> simp [h]
    rw [hhead]
    by_cases h0 : k0 = k
    · rw [if_pos h0, aget_cons, aget_cons, if_neg (by omega : ¬ k = j),
        if_neg (by omega : ¬ k0 = j), ih]
    · rw [if_neg h0, aget_cons, aget_cons, ih]

theorem aget_map_replace_self {α : Type} (l : List (Nat × α)) (k : Nat) (v : α) :
    aget (l.map (fun p => if p.1 == k then (k, v) else p)) k
      = if l.any (fun p => p.1 == k) then some v else none := by
  induction l with
  | nil => rfl
  | cons p t ih =>
    obtain ⟨k0, v0⟩ := p
    have hhead : ((k0, v0) :: t).map (fun p => if p.1 == k then (k, v) else p)
        = (if k0 = k then (k, v) else (k0, v0))
          :: t.map (fun p => if p.1 == k then (k, v) else p) := by
      by_cases h : k0 = k <;> simp [h]
    rw [hhead]
    by_cases h0 : k0 = k
    · rw [if_pos h0, aget_cons, if_pos rfl]
      have hany : ((k0, v0) :: t).any (fun p => p.1 == k) = true := by
        simp [List.any_cons, h0]
      rw [hany]
      simp
    · rw [if_neg h0, aget_cons, if_neg h0, ih]
      have hbe : (k0 == k) = false := by simp [h0]
      rw [List.any_cons, hbe, Bool.false_or]

theorem aget_aset {α : Type} (l : List (Nat × α)) (k : Nat) (v : α) (j : Nat) :
    aget (aset l k v) j = if j = k then some v else aget l j := by
  unfold aset
  by_cases hany : l.any (fun p => p.1 == k)
  · rw [if_pos hany]
    by_cases hj : j = k
    · subst hj
      rw [aget_map_replace_self, hany]
      simp
    · rw [aget_map_replace_ne _ _ _ _ hj, if_neg hj]
  · rw [if_neg hany]
    have hnone : aget l k = none := by
      apply aget_eq_none
      intro p hp
      have h2 := List.any_eq_false.mp (Bool.eq_false_iff.mpr hany) p hp
      simpa using h2
    unfold aget
    rw [List.find?_append]
    by_cases hj : j = k
    · subst hj
      have hfnone : l.find? (fun p => p.1 == j) = none := by
        rcases hfind : l.find? (fun p => p.1 == j) with _ | q
        · exact hfind
        · unfold aget at hnone
          rw [hfind] at hnone
          cases hnone
      rw [hfnone]
      simp [List.find?_cons]
    · have h2 : List.find? (fun p => p.1 == j) [(k, v)] = none := by
        simp only [List.find?_cons]
        have hne : (k == j) = false := by
          simp only [beq_eq_false_iff_ne, ne_eq]
          exact fun h => hj h.symm
        simp [hne]
      rw [h2]
      rcases hfind : l.find? (fun p => p.1 == j) with _ | q <;> simp [aget, hfind, hj]

theorem aget_aset_self {α : Type} (l : List (Nat × α)) (k : Nat) (v : α) :
    aget (aset l k v) k = some v := by
  rw [aget_aset, if_pos rfl]

theorem aget_aremove {α : Type} (l : List (Nat × α)) (k j : Nat) :
    aget (aremove l k) j = if j = k then none else aget l j := by
  induction l with
  | nil => by_cases hj : j = k <;> simp [aremove, aget, hj]
  | cons p t ih =>
    obtain ⟨k0, v0⟩ := p
    have hstep : aremove ((k0, v0) :: t) k
        = if k0 = k then aremove t k else (k0, v0) :: aremove t k := by
      by_cases h : k0 = k <;> simp [aremove, List.filter_cons, h]
    rw [hstep]
    by_cases h0 : k0 = k <;> by_cases hj : j = k
    · subst h0; subst hj
      simp [aget_cons, ih]
    · subst h0
      have hkj : ¬ k0 = j := fun h => hj h.symm
      simp [aget_cons, hkj, hj, ih]
    · subst hj
      simp [aget_cons, h0, ih]
    · have hkj : ¬ k = j := fun h => hj h.symm
      simp [aget_cons, h0, hj, hkj, ih]

theorem nodupKeys_cons {α : Type} (k0 : Nat) (v0 : α) (t : List (Nat × α)) :
    NodupKeys ((k0, v0) :: t) ↔ (∀ p ∈ t, p.1 ≠ k0) ∧ NodupKeys t := by
  simp only [NodupKeys, List.map_cons, List.nodup_cons, List.mem_map]
  constructor
  · rintro ⟨h1, h2⟩
    refine ⟨fun p hp hk => h1 ⟨p, hp, hk⟩, h2⟩
  · rintro ⟨h1, h2⟩
    exact ⟨fun ⟨p, hp, hk⟩ => h1 p hp hk, h2⟩

theorem aget_aextend {α : Type} (l m : List (Nat × α)) (hm : NodupKeys m) (j : Nat) :
    aget (aextend l m)  j
      = match aget m j with
        | some v => some v
        | none => aget l j := by
  induction m generalizing l with
  | nil => rfl
  | cons p t ih =>
    obtain ⟨k0, v0⟩ := p
    obtain ⟨hk0, ht⟩ := (nodupKeys_cons k0 v0 t).mp hm
    show aget (aextend (aset l k0 v0) t) j = _
    rw [ih _ ht, aget_cons]
    by_cases hj : k0 = j
    · subst hj
      rw [aget_eq_none t k0 hk0, if_pos rfl, aget_aset, if_pos rfl]
    · rw [if_neg hj]
      rcases hget : aget t j with _ | v
      · rw [aget_aset, if_neg (fun hh => hj hh.symm)]
      · rfl

theorem aget_foldl_preserve {α β : Type} (step : List (Nat × α) → β → List (Nat × α))
    (keyOf : β → Nat)
    (hstep : ∀ acc b j, j ≠ keyOf b → aget (step acc b) j = aget acc j)
    (L : List β) (init : List (Nat × α)) (j : Nat) (hj : ∀ b ∈ L, j ≠ keyOf b) :
    aget (L.foldl step init) j = aget init j := by
  induction L generalizing init with
  | nil => rfl
  | cons b t ih =>
    show aget (t.foldl step (step init b)) j = _
    rw [ih _ (fun x hx => hj x (by simp [hx])), hstep _ _ _ (hj b (by simp))]

theorem aget_filter {α : Type} (l : List (Nat × α)) (p : Nat × α → Bool) (k : Nat) (v : α)
    (h : aget l k = some v) (hp : p (k, v) = true) :
    aget (l.filter p) k = some v := by
  induction l with
  | nil => cases h
  | cons q t ih =>
    obtain ⟨k0, v0⟩ := q
    rw [aget_cons] at h
    rw [List.filter_cons]
    by_cases h0 : k0 = k
    · rw [if_pos h0] at h
      cases h
      rw [if_pos (h0 ▸ hp), aget_cons, if_pos h0]
    · rw [if_neg h0] at h
      split
      · rw [aget_cons, if_neg h0]
        exact ih h
      · exact ih h

/-! ### Overlay operation lemmas -/

theorem aget_isEmpty_false {α : Type} (m : List (Nat × α)) (i : Nat) (e : α)
    (h : aget m i = some e) : m.isEmpty = false := by
  cases m with
  | nil => cases h
  | cons p t => rfl

/-! ### Overlay operation lemmas -/

theorem evictSlot_preserve {γ : Type} (getId : γ → Nat) (m : List (Nat × γ))
    (i' rid i : Nat) (e : γ) (h : aget m i = some e) (hne : getId e ≠ rid) :
    aget (evictSlot getId m i' rid) i = some e := by
  unfold evictSlot
  rcases hget : aget m i' with _ | e'
  · exact h
  · show aget (if getId e' = rid then aremove m i' else m) i = some e
    by_cases heq : getId e' = rid
    · rw [if_pos heq, aget_aremove]
      by_cases hii : i = i'
      · subst hii
        rw [h] at hget
        cases hget
        exact absurd heq hne
      · rw [if_neg hii]
        exact h
    · rw [if_neg heq]
      exact h

theorem evictStepIdx_preserve (rid : Nat) (acc : List (Nat × IndexLogOverlay))
    (p : Nat × Nat) (t i : Nat) (e : Nat × Nat × List Nat)
    (h : overlayIdxGet acc t i = some e) (hne : e.1 ≠ rid) :
    overlayIdxGet (evictStepIdx rid acc p) t i = some e := by
  obtain ⟨t', i'⟩ := p
  unfold overlayIdxGet at h ⊢
  rcases hat : aget acc t with _ | ovt
  · rw [hat] at h; cases h
  · rw [hat] at h
    simp only [Option.some_bind] at h
    rcases hget : aget acc t' with _ | ov
    · have hstep : evictStepIdx rid acc (t', i') = acc := by
        unfold evictStepIdx
        rw [hget]
      rw [hstep, hat]
      simpa using h
    · have hstep : evictStepIdx rid acc (t', i')
          = aset acc t' ⟨evictSlot (fun e => e.1) ov.map i' rid⟩ := by
        unfold evictStepIdx
        rw [hget]
      rw [hstep]
      by_cases htt : t = t'
      · subst htt
        rw [hget] at hat
        cases hat
        rw [aget_aset, if_pos rfl]
        simpa using evictSlot_preserve _ _ _ _ _ _ h hne
      · rw [aget_aset, if_neg htt, hat]
        simpa using h

theorem evictStepVal_preserve (rid : Nat) (acc : List (Nat × ValueLogOverlay))
    (p : Nat × Nat) (t i : Nat) (e : Nat × List Nat)
    (h : overlayValGet acc t i = some e) (hne : e.1 ≠ rid) :
    overlayValGet (evictStepVal rid acc p) t i = some e := by
  obtain ⟨t', i'⟩ := p
  unfold overlayValGet at h ⊢
  rcases hat : aget acc t with _ | ovt
  · rw [hat] at h; cases h
  · rw [hat] at h
    simp only [Option.some_bind] at h
    rcases hget : aget acc t' with _ | ov
    · have hstep : evictStepVal rid acc (t', i') = acc := by
        unfold evictStepVal
        rw [hget]
      rw [hstep, hat]
      simpa using h
    · have hstep : evictStepVal rid acc (t', i')
          = aset acc t' ⟨evictSlot (fun e => e.1) ov.map i' rid⟩ := by
        unfold evictStepVal
        rw [hget]
      rw [hstep]
      by_cases htt : t = t'
      · subst htt
        rw [hget] at hat
        cases hat
        rw [aget_aset, if_pos rfl]
        simpa using evictSlot_preserve _ _ _ _ _ _ h hne
      · rw [aget_aset, if_neg htt, hat]
        simpa using h

theorem evictFoldIdx_preserve (cl : List (Nat × Nat)) (rid : Nat) :
    ∀ (acc : List (Nat × IndexLogOverlay)) t i e,
      overlayIdxGet acc t i = some e → e.1 ≠ rid →
      overlayIdxGet (cl.foldl (evictStepIdx rid) acc) t i = some e := by
  induction cl with
  | nil => intro acc t i e h _; exact h
  | cons p cl ih =>
    intro acc t i e h hne
    rw [List.foldl_cons]
    exact ih _ t i e (evictStepIdx_preserve rid acc p t i e h hne) hne

theorem evictFoldVal_preserve (cl : List (Nat × Nat)) (rid : Nat) :
    ∀ (acc : List (Nat × ValueLogOverlay)) t i e,
      overlayValGet acc t i = some e → e.1 ≠ rid →
      overlayValGet (cl.foldl (evictStepVal rid) acc) t i = some e := by
  induction cl with
  | nil => intro acc t i e h _; exact h
  | cons p cl ih =>
    intro acc t i e h hne
    rw [List.foldl_cons]
    exact ih _ t i e (evictStepVal_preserve rid acc p t i e h hne) hne

theorem evictFoldVal_keys (cl : List (Nat × Nat)) (rid : Nat) :
    ∀ (acc : List (Nat × ValueLogOverlay)) t,
      (aget (cl.foldl (evictStepVal rid) acc) t).isSome = (aget acc t).isSome := by
  induction cl with
  | nil => intro acc t; rfl
  | cons p cl ih =>
    intro acc t
    rw [List.foldl_cons, ih]
    obtain ⟨t', i'⟩ := p
    rcases hget : aget acc t' with _ | ov
    · have hstep : evictStepVal rid acc (t', i') = acc := by
        unfold evictStepVal
        rw [hget]
      rw [hstep]
    · have hstep : evictStepVal rid acc (t', i')
          = aset acc t' ⟨evictSlot (fun e => e.1) ov.map i' rid⟩ := by
        unfold evictStepVal
        rw [hget]
      rw [hstep, aget_aset]
      by_cases htt : t = t'
      · subst htt
        rw [if_pos rfl, hget]
        rfl
      · rw [if_neg htt]

theorem valueQuery_none (o : LogOverlays) (t i : Nat) (dest : List Nat)
    (h : overlayValGet o.value t i = none) :
    o.valueQuery t i dest = (false, dest) := by
  have hsc : (aget o.value t).bind (fun ov => (aget ov.map i).map (fun e => e.2)) = none := by
    unfold overlayValGet at h
    rcases hat : aget o.value t with _ | ov
    · rfl
    · rw [hat] at h
      simp only [Option.some_bind] at h ⊢
      rw [h]
      rfl
  unfold LogOverlays.valueQuery
  rw [hsc]

/-! ### Writer invariants and the `end_record` merge -/

theorem aset_nodupKeys {α : Type} (l : List (Nat × α)) (k : Nat) (v : α)
    (h : NodupKeys l) : NodupKeys (aset l k v) := by
  unfold aset
  by_cases hany : l.any (fun p => p.1 == k)
  · rw [if_pos hany]
    unfold NodupKeys at h ⊢
    have hmap : (l.map (fun p => if p.1 == k then (k, v) else p)).map Prod.fst
        = l.map Prod.fst := by
      rw [List.map_map]
      apply List.map_congr_left
      intro p _
      by_cases hp : p.1 = k <;> simp [hp]
    rw [hmap]
    exact h
  · rw [if_neg hany]
    unfold NodupKeys at h ⊢
    rw [List.map_append]
    simp only [List.map_cons, List.map_nil]
    rw [List.nodup_append]
    refine ⟨h, List.nodup_singleton _, ?_⟩
    intro a ha
    simp only [List.mem_singleton]
    intro hak
    subst hak
    obtain ⟨p, hp, hpk⟩ := List.mem_map.mp ha
    have h2 := List.any_eq_false.mp (Bool.eq_false_iff.mpr hany) p hp
    simp [hpk] at h2

theorem mem_aset {α : Type} (l : List (Nat × α)) (k : Nat) (v : α) (p : Nat × α)
    (h : p ∈ aset l k v) : p = (k, v) ∨ p ∈ l := by
  unfold aset at h
  by_cases hany : l.any (fun p => p.1 == k)
  · rw [if_pos hany] at h
    obtain ⟨q, hq, hfq⟩ := List.mem_map.mp h
    by_cases hqk : q.1 = k
    · simp only [hqk, beq_self_eq_true, if_true] at hfq
      exact Or.inl hfq.symm
    · have hbe : (q.1 == k) = false := by simp [hqk]
      rw [hbe] at hfq
      simp only [Bool.false_eq_true, if_false] at hfq
      exact Or.inr (hfq ▸ hq)
  · rw [if_neg hany] at h
    rcases List.mem_append.mp h with h1 | h1
    · exact Or.inr h1
    · exact Or.inl (List.mem_singleton.mp h1)

theorem applyOp_record_id (c : LogChange) (op : WriterOp) :
    (applyOp c op).record_id = c.record_id := by
  cases op <;> rfl

theorem buildChange_aux_record_id (ops : List WriterOp) :
    ∀ c : LogChange, (ops.foldl applyOp c).record_id = c.record_id := by
  induction ops with
  | nil => intro c; rfl
  | cons op ops ih =>
    intro c
    rw [List.foldl_cons, ih, applyOp_record_id]

theorem buildChange_record_id (r : Nat) (ops : List WriterOp) :
    (buildChange r ops).record_id = r :=
  buildChange_aux_record_id ops (LogChange.new r)

theorem changeWF_insIdx (c : LogChange) (t i : Nat) (entryVal : Nat × Nat × List Nat)
    (hid : entryVal.1 = c.record_id) (h : ChangeWF c) :
    ChangeWF { c with
      local_index := aset c.local_index t
        ⟨aset ((aget c.local_index t).getD ⟨[]⟩).map i entryVal⟩ } := by
  obtain ⟨h1, h2, h3, h4⟩ := h
  have hov : NodupKeys ((aget c.local_index t).getD ⟨[]⟩).map
      ∧ ∀ q ∈ ((aget c.local_index t).getD ⟨[]⟩).map, q.2.1 = c.record_id := by
    rcases hget : aget c.local_index t with _ | ov0
    · exact ⟨List.nodup_nil, fun q hq => by cases hq⟩
    · simpa using h3 _ (aget_mem _ _ _ hget)
  refine ⟨aset_nodupKeys _ _ _ h1, h2, ?_, h4⟩
  intro p hp
  rcases mem_aset _ _ _ _ hp with hnew | hold
  · subst hnew
    refine ⟨aset_nodupKeys _ _ _ hov.1, ?_⟩
    intro q hq
    rcases mem_aset _ _ _ _ hq with hn | ho
    · subst hn
      exact hid
    · exact hov.2 _ ho
  · exact h3 _ hold

theorem changeWF_insVal (c : LogChange) (t i : Nat) (entryVal : Nat × List Nat)
    (hid : entryVal.1 = c.record_id) (h : ChangeWF c) :
    ChangeWF { c with
      local_values := aset c.local_values t
        ⟨aset ((aget c.local_values t).getD ⟨[]⟩).map i entryVal⟩ } := by
  obtain ⟨h1, h2, h3, h4⟩ := h
  have hov : NodupKeys ((aget c.local_values t).getD ⟨[]⟩).map
      ∧ ∀ q ∈ ((aget c.local_values t).getD ⟨[]⟩).map, q.2.1 = c.record_id := by
    rcases hget : aget c.local_values t with _ | ov0
    · exact ⟨List.nodup_nil, fun q hq => by cases hq⟩
    · simpa using h4 _ (aget_mem _ _ _ hget)
  refine ⟨h1, aset_nodupKeys _ _ _ h2, h3, ?_⟩
  intro p hp
  rcases mem_aset _ _ _ _ hp with hnew | hold
  · subst hnew
    refine ⟨aset_nodupKeys _ _ _ hov.1, ?_⟩
    intro q hq
    rcases mem_aset _ _ _ _ hq with hn | ho
    · subst hn
      exact hid
    · exact hov.2 _ ho
  · exact h4 _ hold

theorem changeWF_applyOp (c : LogChange) (op : WriterOp) (h : ChangeWF c) :
    ChangeWF (applyOp c op) := by
  cases op with
  | insIdx t i sub d => exact changeWF_insIdx c t i _ rfl h
  | insVal t i d => exact changeWF_insVal c t i _ rfl h
  | dropTab id => exact h

theorem changeWF_foldl (ops : List WriterOp) :
    ∀ c : LogChange, ChangeWF c → ChangeWF (ops.foldl applyOp c) := by
  induction ops with
  | nil => intro c h; exact h
  | cons op ops ih =>
    intro c h
    rw [List.foldl_cons]
    exact ih _ (changeWF_applyOp c op h)

theorem buildChange_WF (r : Nat) (ops : List WriterOp) : ChangeWF (buildChange r ops) := by
  apply changeWF_foldl
  refine ⟨List.nodup_nil, List.nodup_nil, ?_, ?_⟩ <;> intro p hp <;> cases hp

theorem mergeFoldIdx_get (L : List (Nat × IndexLogOverlay)) :
    ∀ (init : List (Nat × IndexLogOverlay)) t ov i e,
      NodupKeys L → aget L t = some ov → NodupKeys ov.map → aget ov.map i = some e →
      overlayIdxGet (L.foldl mergeStepIdx init) t i = some e := by
  induction L with
  | nil =>
    intro init t ov i e _ hget _ _
    cases hget
  | cons p L ih =>
    intro init t ov i e hnod hget hovnod he
    obtain ⟨k0, ov0⟩ := p
    obtain ⟨hk0, hL⟩ := (nodupKeys_cons k0 ov0 L).mp hnod
    rw [List.foldl_cons]
    rw [aget_cons] at hget
    by_cases ht : k0 = t
    · subst ht
      rw [if_pos rfl] at hget
      cases hget
      have hpres : aget (L.foldl mergeStepIdx (mergeStepIdx init (k0, ov))) k0
          = aget (mergeStepIdx init (k0, ov)) k0 := by
        apply aget_foldl_preserve mergeStepIdx Prod.fst
        · intro acc b j hjb
          unfold mergeStepIdx
          rw [aget_aset, if_neg hjb]
        · intro b hb
          exact fun hEq => (hk0 b hb) hEq.symm
      unfold overlayIdxGet
      rw [hpres]
      unfold mergeStepIdx
      rw [aget_aset_self]
      simp only [Option.some_bind]
      show aget (aextend ((aget init k0).getD ⟨[]⟩).map ov.map) i = some e
      rw [aget_aextend _ _ hovnod i, he]
    · rw [if_neg ht] at hget
      exact ih _ t ov i e hL hget hovnod he

theorem mergeFoldVal_get (L : List (Nat × ValueLogOverlay)) :
    ∀ (init : List (Nat × ValueLogOverlay)) t ov i e,
      NodupKeys L → aget L t = some ov → NodupKeys ov.map → aget ov.map i = some e →
      overlayValGet (L.foldl mergeStepVal init) t i = some e := by
  induction L with
  | nil =>
    intro init t ov i e _ hget _ _
    cases hget
  | cons p L ih =>
    intro init t ov i e hnod hget hovnod he
    obtain ⟨k0, ov0⟩ := p
    obtain ⟨hk0, hL⟩ := (nodupKeys_cons k0 ov0 L).mp hnod
    rw [List.foldl_cons]
    rw [aget_cons] at hget
    by_cases ht : k0 = t
    · subst ht
      rw [if_pos rfl] at hget
      cases hget
      have hpres : aget (L.foldl mergeStepVal (mergeStepVal init (k0, ov))) k0
          = aget (mergeStepVal init (k0, ov)) k0 := by
        apply aget_foldl_preserve mergeStepVal Prod.fst
        · intro acc b j hjb
          unfold mergeStepVal
          rw [aget_aset, if_neg hjb]
        · intro b hb
          exact fun hEq => (hk0 b hb) hEq.symm
      unfold overlayValGet
      rw [hpres]
      unfold mergeStepVal
      rw [aget_aset_self]
      simp only [Option.some_bind]
      show aget (aextend ((aget init k0).getD ⟨[]⟩).map ov.map) i = some e
      rw [aget_aextend _ _ hovnod i, he]
    · rw [if_neg ht] at hget
      exact ih _ t ov i e hL hget hovnod he

/-! ### Claims about the overlay (C1, C2, C10) -/

/-- C1: `end_read(cleared, record_id)` removes an overlay entry named by a
`(table, slot)` pair of the clear list only when the entry's stored record id
equals `record_id`; an entry whose stored record id differs — for example one
written by a later record — is left unchanged, with the same stored value.
(The shadowed-slot scenario of the claim instantiates the value half; see the
witness.) -/
theorem end_read_preserves_newer (s : LogState) (cleared : Cleared) (rid : Nat) :
    (∀ t i e, overlayIdxGet s.overlays.index t i = some e → e.1 ≠ rid →
      overlayIdxGet (endRead s cleared rid).overlays.index t i = some e)
    ∧ (∀ t i e, overlayValGet s.overlays.value t i = some e → e.1 ≠ rid →
      overlayValGet (endRead s cleared rid).overlays.value t i = some e) := by
  constructor
  · intro t i e h hne
    have hfold := evictFoldIdx_preserve cleared.index rid s.overlays.index t i e h hne
    have hidx : (endRead s cleared rid).overlays.index
        = (cleared.index.foldl (evictStepIdx rid) s.overlays.index).filter
            (fun p => !p.2.map.isEmpty) := rfl
    rw [hidx]
    unfold overlayIdxGet at hfold ⊢
    rcases hat : aget (cleared.index.foldl (evictStepIdx rid) s.overlays.index) t with _ | ovt
    · rw [hat] at hfold
      cases hfold
    · rw [hat] at hfold
      simp only [Option.some_bind] at hfold
      have hne2 : ovt.map.isEmpty = false := aget_isEmpty_false _ _ _ hfold
      have hkeep : aget ((cleared.index.foldl (evictStepIdx rid) s.overlays.index).filter
          (fun p => !p.2.map.isEmpty)) t = some ovt := by
        apply aget_filter _ _ _ _ hat
        simp [hne2]
      rw [hkeep]
      simpa using hfold
  · intro t i e h hne
    exact evictFoldVal_preserve cleared.values rid s.overlays.value t i e h hne

/-- C1 witness: the shadowed-slot scenario.  Record 1 writes `"v1"` (bytes
`[118, 49]`) to value slot `(0, 7)` and publishes via `end_record`; record 2
overwrites the same slot with `"v2"` (bytes `[118, 50]`).  After
`end_read([(0,7)], 1)` the overlay still holds record 2's `"v2"`. -/
theorem end_read_preserves_newer_witness :
    overlayValGet (endRead
      { overlays := mergeChange
          (mergeChange ⟨[], []⟩ (buildChange 1 [WriterOp.insVal 0 7 [118, 49]]))
          (buildChange 2 [WriterOp.insVal 0 7 [118, 50]]),
        next_record_id := 3 }
      ⟨[], [(0, 7)]⟩ 1).overlays.value 0 7 = some (2, [118, 50]) :=
  (end_read_preserves_newer
    { overlays := mergeChange
        (mergeChange ⟨[], []⟩ (buildChange 1 [WriterOp.insVal 0 7 [118, 49]]))
        (buildChange 2 [WriterOp.insVal 0 7 [118, 50]]),
      next_record_id := 3 }
    ⟨[], [(0, 7)]⟩ 1).2 0 7 (2, [118, 50]) (by rfl) (by decide)

/-- C2: every successful `end_record(change)` call (the `assert!` passes and
it returns `Some`) merges all of the change's index and value mutations into
the shared overlay: each `(table, slot)` the record touched maps afterwards
to the record's entry, tagged with the record's id — `extend` semantics, so
this record's entry replaces any earlier overlay entry at the same key. -/
theorem end_record_publishes (s : LogState) (rid : Nat) (ops : List WriterOp)
    (s' : LogState) (h : endRecord s (buildChange rid ops) = some s') :
    (∀ t i e, overlayIdxGet (buildChange rid ops).local_index t i = some e →
      overlayIdxGet s'.overlays.index t i = some e ∧ e.1 = rid)
    ∧ (∀ t i e, overlayValGet (buildChange rid ops).local_values t i = some e →
      overlayValGet s'.overlays.value t i = some e ∧ e.1 = rid) := by
  have hwf := buildChange_WF rid ops
  obtain ⟨h1, h2, h3, h4⟩ := hwf
  have hs' : s' = { s with overlays := mergeChange s.overlays (buildChange rid ops) } := by
    unfold endRecord at h
    split at h
    · exact (Option.some.inj h).symm
    · cases h
  subst hs'
  constructor
  · intro t i e hget
    unfold overlayIdxGet at hget
    rcases hat : aget (buildChange rid ops).local_index t with _ | ov
    · rw [hat] at hget
      cases hget
    · rw [hat] at hget
      simp only [Option.some_bind] at hget
      have hov := h3 _ (aget_mem _ _ _ hat)
      have hid : e.1 = rid := by
        have := hov.2 _ (aget_mem _ _ _ hget)
        rwa [buildChange_record_id] at this
      refine ⟨?_, hid⟩
      exact mergeFoldIdx_get _ _ t ov i e h1 hat hov.1 hget
  · intro t i e hget
    unfold overlayValGet at hget
    rcases hat : aget (buildChange rid ops).local_values t with _ | ov
    · rw [hat] at hget
      cases hget
    · rw [hat] at hget
      simp only [Option.some_bind] at hget
      have hov := h4 _ (aget_mem _ _ _ hat)
      have hid : e.1 = rid := by
        have := hov.2 _ (aget_mem _ _ _ hget)
        rwa [buildChange_record_id] at this
      refine ⟨?_, hid⟩
      exact mergeFoldVal_get _ _ t ov i e h2 hat hov.1 hget

/-- C2 witness: a record with one index and one value mutation, committed
against an overlay that already holds older entries under the same keys; the
merged overlay maps both slots to the new record's entries, tagged id 9. -/
theorem end_record_publishes_witness :
    overlayValGet (mergeChange
        (mergeChange ⟨[], []⟩ (buildChange 3 [WriterOp.insVal 2 5 [1]]))
        (buildChange 9 [WriterOp.insVal 2 5 [7, 7], WriterOp.insIdx 4 6 0 [9]])).value 2 5
      = some (9, [7, 7]) := by
  have h := (end_record_publishes
    { overlays := mergeChange ⟨[], []⟩ (buildChange 3 [WriterOp.insVal 2 5 [1]]),
      next_record_id := 10 }
    9 [WriterOp.insVal 2 5 [7, 7], WriterOp.insIdx 4 6 0 [9]] _ rfl).2 2 5 (9, [7, 7]) (by rfl)
  exact h.1

/-- C10: after every `end_read` call, the overlay's index side contains no
per-table sub-map that is empty (`retain` drops them), while the value side
keeps exactly its per-table sub-maps, even ones eviction emptied; a `value`
query for a slot that is absent (in particular inside an emptied value
sub-map) returns `false` and leaves `dest` unchanged. -/
theorem end_read_submap_asymmetry (s : LogState) (cleared : Cleared) (rid : Nat) :
    (∀ t ov, aget (endRead s cleared rid).overlays.index t = some ov → ov.map ≠ [])
    ∧ (∀ t, (aget (endRead s cleared rid).overlays.value t).isSome
        = (aget s.overlays.value t).isSome)
    ∧ (∀ t i dest, overlayValGet (endRead s cleared rid).overlays.value t i = none →
        (endRead s cleared rid).overlays.valueQuery t i dest = (false, dest)) := by
  refine ⟨?_, ?_, ?_⟩
  · intro t ov hget
    have hidx : (endRead s cleared rid).overlays.index
        = (cleared.index.foldl (evictStepIdx rid) s.overlays.index).filter
            (fun p => !p.2.map.isEmpty) := rfl
    rw [hidx] at hget
    have hmem := aget_mem _ _ _ hget
    have := List.of_mem_filter hmem
    intro hnil
    rw [hnil] at this
    simp at this
  · intro t
    exact evictFoldVal_keys cleared.values rid s.overlays.value t
  · intro t i dest h
    exact valueQuery_none _ _ _ _ h

/-- C10 witness: record 1's value entry at `(0, 7)` is evicted by
`end_read([(0,7)], 1)`; the emptied value sub-map for table 0 stays in the
overlay while a `value` query on the slot now returns `false`, and the index
side of the same state holds no empty sub-map. -/
theorem end_read_submap_asymmetry_witness :
    (aget (endRead
        { overlays := mergeChange ⟨[], []⟩ (buildChange 1 [WriterOp.insVal 0 7 [118, 49]]),
          next_record_id := 2 }
        ⟨[], [(0, 7)]⟩ 1).overlays.value 0).isSome = true
    ∧ (endRead
        { overlays := mergeChange ⟨[], []⟩ (buildChange 1 [WriterOp.insVal 0 7 [118, 49]]),
          next_record_id := 2 }
        ⟨[], [(0, 7)]⟩ 1).overlays.valueQuery 0 7 [5, 5] = (false, [5, 5]) := by
  constructor
  · have h := (end_read_submap_asymmetry
      { overlays := mergeChange ⟨[], []⟩ (buildChange 1 [WriterOp.insVal 0 7 [118, 49]]),
        next_record_id := 2 } ⟨[], [(0, 7)]⟩ 1).2.1 0
    rw [h]
    rfl
  · exact (end_read_submap_asymmetry
      { overlays := mergeChange ⟨[], []⟩ (buildChange 1 [WriterOp.insVal 0 7 [118, 49]]),
        next_record_id := 2 } ⟨[], [(0, 7)]⟩ 1).2.2 0 7 [5, 5] (by rfl)

/-! ### The record-id counter (C7) -/

theorem endRead_next (s : LogState) (c : Cleared) (r : Nat) :
    (endRead s c r).next_record_id
      = if r ≥ s.next_record_id then (r + 1) % 2 ^ 64 else s.next_record_id := rfl

theorem beginRecord_next (s : LogState) :
    ((beginRecord s).2).next_record_id = (s.next_record_id + 1) % 2 ^ 64 := rfl

theorem beginRecord_fst (s : LogState) : (beginRecord s).1 = s.next_record_id := rfl

theorem runLog_append (s : LogState) (a b : List LogOp) :
    runLog s (a ++ b) = runLog (runLog s a) b := by
  simp [runLog, List.foldl_append]

theorem applyLogOp_mono (s : LogState) (op : LogOp)
    (h1 : s.next_record_id + 1 < 2 ^ 64)
    (h2 : ∀ c r, op = LogOp.endReadOp c r → r + 1 < 2 ^ 64) :
    s.next_record_id ≤ (applyLogOp s op).next_record_id := by
  cases op with
  | begin =>
    show s.next_record_id ≤ ((beginRecord s).2).next_record_id
    rw [beginRecord_next, Nat.mod_eq_of_lt h1]
    omega
  | endReadOp c r =>
    show s.next_record_id ≤ (endRead s c r).next_record_id
    rw [endRead_next]
    by_cases hge : r ≥ s.next_record_id
    · rw [if_pos hge, Nat.mod_eq_of_lt (h2 c r rfl)]
      omega
    · rw [if_neg hge]

theorem applyLogOp_bound (s : LogState) (op : LogOp) (C B : Nat)
    (hs : s.next_record_id ≤ C) (hB : ∀ c r, op = LogOp.endReadOp c r → r ≤ B)
    (hBC : B + 1 ≤ C) :
    (applyLogOp s op).next_record_id ≤ C + 1 := by
  cases op with
  | begin =>
    show ((beginRecord s).2).next_record_id ≤ C + 1
    rw [beginRecord_next]
    have := Nat.mod_le (s.next_record_id + 1) (2 ^ 64)
    omega
  | endReadOp c r =>
    show (endRead s c r).next_record_id ≤ C + 1
    rw [endRead_next]
    have hr := hB c r rfl
    by_cases hge : r ≥ s.next_record_id
    · rw [if_pos hge]
      have := Nat.mod_le (r + 1) (2 ^ 64)
      omega
    · rw [if_neg hge]
      omega

theorem runLog_mono_bound (B : Nat) (l : List LogOp) :
    ∀ (s : LogState) (C : Nat),
      (∀ c r, LogOp.endReadOp c r ∈ l → r ≤ B) →
      s.next_record_id ≤ C → B + 1 ≤ C → C + l.length < 2 ^ 64 →
      s.next_record_id ≤ (runLog s l).next_record_id
        ∧ (runLog s l).next_record_id ≤ C + l.length := by
  induction l with
  | nil =>
    intro s C _ hs _ _
    exact ⟨Nat.le_refl _, by simpa using hs⟩
  | cons op l ih =>
    intro s C hB hs hBC hC
    rw [List.length_cons] at hC
    have hmono : s.next_record_id ≤ (applyLogOp s op).next_record_id := by
      apply applyLogOp_mono
      · omega
      · intro c r hop
        have hm : LogOp.endReadOp c r ∈ op :: l := by
          rw [← hop]
          exact List.mem_cons_self op l
        have := hB c r hm
        omega
    have hbound : (applyLogOp s op).next_record_id ≤ C + 1 := by
      apply applyLogOp_bound s op C B hs _ hBC
      intro c r hop
      apply hB c r
      rw [← hop]
      exact List.mem_cons_self op l
    have hrec := ih (applyLogOp s op) (C + 1)
      (fun c r hm => hB c r (List.mem_cons_of_mem _ hm)) hbound (by omega) (by omega)
    refine ⟨le_trans hmono hrec.1, ?_⟩
    show (runLog (applyLogOp s op) l).next_record_id ≤ C + (l.length + 1)
    have := hrec.2
    omega

/-- C7: the `next_record_id` counter is never decreased by any operation:
`begin_record` atomically increments it (wrapping `fetch_add`), `end_read`
stores `record_id + 1` only when `record_id` is at least the current value,
and `end_record` leaves it unchanged; hence after an `end_read` enacting
record id `M`, every record id subsequently handed out by `begin_record` is
strictly greater than `M`.  The arithmetic hypotheses keep the 64-bit
counter from physically wrapping (which would require on the order of `2^64`
operations). -/
theorem next_record_id_monotonic (s : LogState) (ops : List LogOp) (B : Nat)
    (hB : ∀ c r, LogOp.endReadOp c r ∈ ops → r ≤ B)
    (hno : s.next_record_id + B + ops.length + 2 < 2 ^ 64) :
    (∀ s2 c s2', endRecord s2 c = some s2' →
        s2'.next_record_id = s2.next_record_id)
    ∧ (∀ pre op post, ops = pre ++ op :: post →
        (runLog s pre).next_record_id ≤ (runLog s (pre ++ [op])).next_record_id)
    ∧ (∀ t1 c M t2 t3, ops = t1 ++ LogOp.endReadOp c M :: t2 ++ LogOp.begin :: t3 →
        M < (beginRecord (runLog s (t1 ++ LogOp.endReadOp c M :: t2))).1) := by
  refine ⟨?_, ?_, ?_⟩
  · intro s2 c s2' h
    unfold endRecord at h
    split at h
    · have := (Option.some.inj h).symm
      rw [this]
    · cases h
  · intro pre op post heq
    have hlen : pre.length + post.length + 1 = ops.length := by
      rw [heq]
      simp
      omega
    have hBpre : ∀ c r, LogOp.endReadOp c r ∈ pre → r ≤ B := by
      intro c r hm
      apply hB c r
      rw [heq]
      exact List.mem_append_left _ hm
    have hb := (runLog_mono_bound B pre s (s.next_record_id + B + 1) hBpre
      (by omega) (by omega) (by omega)).2
    rw [runLog_append]
    show (runLog s pre).next_record_id
      ≤ (applyLogOp (runLog s pre) op).next_record_id
    apply applyLogOp_mono
    · omega
    · intro c r hop
      have hm : LogOp.endReadOp c r ∈ ops := by
        rw [heq, ← hop]
        exact List.mem_append_right _ (List.mem_cons_self op post)
      have := hB c r hm
      omega
  · intro t1 c M t2 t3 heq
    have hlen : ops.length = t1.length + (t2.length + (t3.length + 2)) := by
      rw [heq]
      simp
      omega
    have hBt1 : ∀ c' r, LogOp.endReadOp c' r ∈ t1 → r ≤ B := by
      intro c' r hm
      apply hB c' r
      rw [heq]
      exact List.mem_append_left _ (List.mem_append_left _ hm)
    have hM : M ≤ B := by
      apply hB c M
      rw [heq]
      exact List.mem_append_left _ (List.mem_append_right _ (List.mem_cons_self _ _))
    have hb1 := (runLog_mono_bound B t1 s (s.next_record_id + B + 1) hBt1
      (by omega) (by omega) (by omega)).2
    have hM2 : M < (applyLogOp (runLog s t1) (LogOp.endReadOp c M)).next_record_id := by
      show M < (endRead (runLog s t1) c M).next_record_id
      rw [endRead_next]
      by_cases hge : M ≥ (runLog s t1).next_record_id
      · rw [if_pos hge, Nat.mod_eq_of_lt (by omega)]
        omega
      · rw [if_neg hge]
        omega
    have hb2 : (applyLogOp (runLog s t1) (LogOp.endReadOp c M)).next_record_id
        ≤ s.next_record_id + B + 1 + t1.length + 1 := by
      apply applyLogOp_bound (runLog s t1) _ (s.next_record_id + B + 1 + t1.length) B hb1
      · intro c' r' h'
        injection h' with h1 h2
        omega
      · omega
    have hBt2 : ∀ c' r, LogOp.endReadOp c' r ∈ t2 → r ≤ B := by
      intro c' r hm
      apply hB c' r
      rw [heq]
      exact List.mem_append_left _ (List.mem_append_right _ (List.mem_cons_of_mem _ hm))
    have hmono2 := (runLog_mono_bound B t2
      (applyLogOp (runLog s t1) (LogOp.endReadOp c M))
      (s.next_record_id + B + 1 + t1.length + 1) hBt2 hb2 (by omega) (by omega)).1
    rw [beginRecord_fst, runLog_append]
    show M < (runLog (applyLogOp (runLog s t1) (LogOp.endReadOp c M)) t2).next_record_id
    omega

/-- C7 witness: starting from a fresh log (counter 1), enacting record 5 via
`end_read` and then calling `begin_record` assigns an id strictly greater
than 5 (namely 6). -/
theorem next_record_id_monotonic_witness :
    5 < (beginRecord (runLog ⟨⟨[], []⟩, 1⟩ [LogOp.endReadOp ⟨[], []⟩ 5])).1 := by
  have h := (next_record_id_monotonic ⟨⟨[], []⟩, 1⟩
    [LogOp.endReadOp ⟨[], []⟩ 5, LogOp.begin] 5 ?_ (by norm_num)).2.2
    [] ⟨[], []⟩ 5 [] [] rfl
  · simpa using h
  · intro c r hm
    simp only [List.mem_cons] at hm
    rcases hm with h1 | h1 | h1
    · injection h1 with h2 h3
      omega
    · cases h1
    · cases h1

/-! ### Reader step lemmas (validating mode) -/

theorem readExact_spec (pre bs post : List Nat) (s : ReaderState) (n : Nat)
    (hf : s.file = pre ++ (bs ++ post)) (hp : s.pos = pre.length) (hn : bs.length = n) :
    readExact s n = some (bs, { s with pos := s.pos + n }) := by
  unfold readExact
  have hlen : s.pos + n ≤ s.file.length := by
    rw [hf, hp]
    simp [List.length_append]
    omega
  rw [if_pos hlen]
  have hdrop : s.file.drop s.pos = bs ++ post := by
    rw [hf, hp, List.drop_left]
  rw [hdrop, ← hn, List.take_left]

theorem readBuf_spec (pre bs post : List Nat) (s : ReaderState) (n : Nat)
    (hf : s.file = pre ++ (bs ++ post)) (hp : s.pos = pre.length) (hn : bs.length = n)
    (hv : s.validate = true) :
    readBuf s n = some (bs,
      { s with pos := s.pos + n, read_bytes := s.read_bytes + n,
               crc := crcUpd s.crc bs }) := by
  unfold readBuf
  rw [readExact_spec pre bs post s n hf hp hn]
  simp [hv]

theorem readRaw_spec (pre bs post : List Nat) (s : ReaderState) (n : Nat)
    (hf : s.file = pre ++ (bs ++ post)) (hp : s.pos = pre.length) (hn : bs.length = n) :
    readRaw s n = some (bs,
      { s with pos := s.pos + n, read_bytes := s.read_bytes + n }) := by
  unfold readRaw
  rw [readExact_spec pre bs post s n hf hp hn]
  rfl

theorem read_spec (pre bs post : List Nat) (s : ReaderState) (n : Nat)
    (hf : s.file = pre ++ (bs ++ post)) (hp : s.pos = pre.length) (hn : bs.length = n)
    (hv : s.validate = true) :
    LogReader.read s n = some (bs,
      { s with pos := s.pos + n, read_bytes := s.read_bytes + n,
               crc := crcUpd s.crc bs }) :=
  readBuf_spec pre bs post s n hf hp hn hv

theorem next_beginRecord (pre post : List Nat) (s : ReaderState) (rid : Nat)
    (hf : s.file = pre ++ ((1 :: leBytes 8 rid) ++ post)) (hp : s.pos = pre.length)
    (hv : s.validate = true) (hrid : rid < 2 ^ 64) :
    LogReader.next s = .ok (.beginRecord,
      { s with pos := s.pos + 9, read_bytes := s.read_bytes + 9,
               crc := crcUpd s.crc (1 :: leBytes 8 rid), record_id := rid }) := by
  have h1 : readBuf s 1 = some ([1],
      { s with pos := s.pos + 1, read_bytes := s.read_bytes + 1,
               crc := crcUpd s.crc [1] }) := by
    apply readBuf_spec pre [1] (leBytes 8 rid ++ post) s 1 _ hp rfl hv
    rw [hf]
    simp
  have h2 : readBuf
      { s with pos := s.pos + 1, read_bytes := s.read_bytes + 1, crc := crcUpd s.crc [1] } 8
      = some (leBytes 8 rid,
        { s with pos := s.pos + 1 + 8, read_bytes := s.read_bytes + 1 + 8,
                 crc := crcUpd (crcUpd s.crc [1]) (leBytes 8 rid) }) := by
    exact readBuf_spec (pre ++ [1]) (leBytes 8 rid) post
      { s with pos := s.pos + 1, read_bytes := s.read_bytes + 1, crc := crcUpd s.crc [1] } 8
      (by rw [hf]; simp) (by rw [hp]; simp) (leBytes_length _ _) hv
  have hcrc : crcUpd (crcUpd s.crc [1]) (leBytes 8 rid) = crcUpd s.crc (1 :: leBytes 8 rid) := by
    rw [← crcUpd_append]
    rfl
  have hfle : fromLE (leBytes 8 rid) = rid := fromLE_leBytes_of_lt 8 rid (by norm_num at hrid ⊢; omega)
  simp [LogReader.next, h1, h2, hcrc, hfle]

theorem next_insertIndex (pre post : List Nat) (s : ReaderState) (t i : Nat)
    (hf : s.file = pre ++ ((2 :: (leBytes 2 t ++ leBytes 8 i)) ++ post))
    (hp : s.pos = pre.length) (hv : s.validate = true)
    (ht : t < 2 ^ 16) (hi : i < 2 ^ 64) :
    LogReader.next s = .ok (.insertIndex t i,
      { s with pos := s.pos + 11, read_bytes := s.read_bytes + 11,
               crc := crcUpd s.crc (2 :: (leBytes 2 t ++ leBytes 8 i)),
               clearedIndex := s.clearedIndex ++ [(t, i)] }) := by
  have h1 : readBuf s 1 = some ([2],
      { s with pos := s.pos + 1, read_bytes := s.read_bytes + 1, crc := crcUpd s.crc [2] }) := by
    apply readBuf_spec pre [2] (leBytes 2 t ++ (leBytes 8 i ++ post)) s 1 _ hp rfl hv
    rw [hf]
    simp
  have h2 : readBuf
      { s with pos := s.pos + 1, read_bytes := s.read_bytes + 1, crc := crcUpd s.crc [2] } 2
      = some (leBytes 2 t,
        { s with pos := s.pos + 1 + 2, read_bytes := s.read_bytes + 1 + 2,
                 crc := crcUpd (crcUpd s.crc [2]) (leBytes 2 t) }) := by
    exact readBuf_spec (pre ++ [2]) (leBytes 2 t) (leBytes 8 i ++ post)
      { s with pos := s.pos + 1, read_bytes := s.read_bytes + 1, crc := crcUpd s.crc [2] } 2
      (by rw [hf]; simp) (by rw [hp]; simp) (leBytes_length _ _) hv
  have h3 : readBuf
      { s with pos := s.pos + 1 + 2, read_bytes := s.read_bytes + 1 + 2,
               crc := crcUpd (crcUpd s.crc [2]) (leBytes 2 t) } 8
      = some (leBytes 8 i,
        { s with pos := s.pos + 1 + 2 + 8, read_bytes := s.read_bytes + 1 + 2 + 8,
                 crc := crcUpd (crcUpd (crcUpd s.crc [2]) (leBytes 2 t)) (leBytes 8 i) }) := by
    exact readBuf_spec (pre ++ [2] ++ leBytes 2 t) (leBytes 8 i) post
      { s with pos := s.pos + 1 + 2, read_bytes := s.read_bytes + 1 + 2,
               crc := crcUpd (crcUpd s.crc [2]) (leBytes 2 t) } 8
      (by rw [hf]; simp) (by rw [hp]; simp [leBytes_length]) (leBytes_length _ _) hv
  have hcrc : crcUpd (crcUpd (crcUpd s.crc [2]) (leBytes 2 t)) (leBytes 8 i)
      = crcUpd s.crc (2 :: (leBytes 2 t ++ leBytes 8 i)) := by
    rw [← crcUpd_append, ← crcUpd_append]
    rfl
  have hflet : fromLE (leBytes 2 t) = t := fromLE_leBytes_of_lt 2 t (by norm_num at ht ⊢; omega)
  have hflei : fromLE (leBytes 8 i) = i := fromLE_leBytes_of_lt 8 i (by norm_num at hi ⊢; omega)
  simp [LogReader.next, h1, h2, h3, hcrc, hflet, hflei]

theorem next_insertValue (pre post : List Nat) (s : ReaderState) (t i : Nat)
    (hf : s.file = pre ++ ((3 :: (leBytes 2 t ++ leBytes 8 i)) ++ post))
    (hp : s.pos = pre.length) (hv : s.validate = true)
    (ht : t < 2 ^ 16) (hi : i < 2 ^ 64) :
    LogReader.next s = .ok (.insertValue t i,
      { s with pos := s.pos + 11, read_bytes := s.read_bytes + 11,
               crc := crcUpd s.crc (3 :: (leBytes 2 t ++ leBytes 8 i)),
               clearedValues := s.clearedValues ++ [(t, i)] }) := by
  have h1 : readBuf s 1 = some ([3],
      { s with pos := s.pos + 1, read_bytes := s.read_bytes + 1, crc := crcUpd s.crc [3] }) := by
    apply readBuf_spec pre [3] (leBytes 2 t ++ (leBytes 8 i ++ post)) s 1 _ hp rfl hv
    rw [hf]
    simp
  have h2 : readBuf
      { s with pos := s.pos + 1, read_bytes := s.read_bytes + 1, crc := crcUpd s.crc [3] } 2
      = some (leBytes 2 t,
        { s with pos := s.pos + 1 + 2, read_bytes := s.read_bytes + 1 + 2,
                 crc := crcUpd (crcUpd s.crc [3]) (leBytes 2 t) }) := by
    exact readBuf_spec (pre ++ [3]) (leBytes 2 t) (leBytes 8 i ++ post)
      { s with pos := s.pos + 1, read_bytes := s.read_bytes + 1, crc := crcUpd s.crc [3] } 2
      (by rw [hf]; simp) (by rw [hp]; simp) (leBytes_length _ _) hv
  have h3 : readBuf
      { s with pos := s.pos + 1 + 2, read_bytes := s.read_bytes + 1 + 2,
               crc := crcUpd (crcUpd s.crc [3]) (leBytes 2 t) } 8
      = some (leBytes 8 i,
        { s with pos := s.pos + 1 + 2 + 8, read_bytes := s.read_bytes + 1 + 2 + 8,
                 crc := crcUpd (crcUpd (crcUpd s.crc [3]) (leBytes 2 t)) (leBytes 8 i) }) := by
    exact readBuf_spec (pre ++ [3] ++ leBytes 2 t) (leBytes 8 i) post
      { s with pos := s.pos + 1 + 2, read_bytes := s.read_bytes + 1 + 2,
               crc := crcUpd (crcUpd s.crc [3]) (leBytes 2 t) } 8
      (by rw [hf]; simp) (by rw [hp]; simp [leBytes_length]) (leBytes_length _ _) hv
  have hcrc : crcUpd (crcUpd (crcUpd s.crc [3]) (leBytes 2 t)) (leBytes 8 i)
      = crcUpd s.crc (3 :: (leBytes 2 t ++ leBytes 8 i)) := by
    rw [← crcUpd_append, ← crcUpd_append]
    rfl
  have hflet : fromLE (leBytes 2 t) = t := fromLE_leBytes_of_lt 2 t (by norm_num at ht ⊢; omega)
  have hflei : fromLE (leBytes 8 i) = i := fromLE_leBytes_of_lt 8 i (by norm_num at hi ⊢; omega)
  simp [LogReader.next, h1, h2, h3, hcrc, hflet, hflei]

theorem next_dropTable (pre post : List Nat) (s : ReaderState) (t : Nat)
    (hf : s.file = pre ++ ((5 :: leBytes 2 t) ++ post))
    (hp : s.pos = pre.length) (hv : s.validate = true) (ht : t < 2 ^ 16) :
    LogReader.next s = .ok (.dropTable t,
      { s with pos := s.pos + 3, read_bytes := s.read_bytes + 3,
               crc := crcUpd s.crc (5 :: leBytes 2 t) }) := by
  have h1 : readBuf s 1 = some ([5],
      { s with pos := s.pos + 1, read_bytes := s.read_bytes + 1, crc := crcUpd s.crc [5] }) := by
    apply readBuf_spec pre [5] (leBytes 2 t ++ post) s 1 _ hp rfl hv
    rw [hf]
    simp
  have h2 : readBuf
      { s with pos := s.pos + 1, read_bytes := s.read_bytes + 1, crc := crcUpd s.crc [5] } 2
      = some (leBytes 2 t,
        { s with pos := s.pos + 1 + 2, read_bytes := s.read_bytes + 1 + 2,
                 crc := crcUpd (crcUpd s.crc [5]) (leBytes 2 t) }) := by
    exact readBuf_spec (pre ++ [5]) (leBytes 2 t) post
      { s with pos := s.pos + 1, read_bytes := s.read_bytes + 1, crc := crcUpd s.crc [5] } 2
      (by rw [hf]; simp) (by rw [hp]; simp) (leBytes_length _ _) hv
  have hcrc : crcUpd (crcUpd s.crc [5]) (leBytes 2 t) = crcUpd s.crc (5 :: leBytes 2 t) := by
    rw [← crcUpd_append]
    rfl
  have hflet : fromLE (leBytes 2 t) = t := fromLE_leBytes_of_lt 2 t (by norm_num at ht ⊢; omega)
  simp [LogReader.next, h1, h2, hcrc, hflet]

theorem next_endRecord (pre post : List Nat) (s : ReaderState) (k : Nat)
    (hf : s.file = pre ++ ((4 :: leBytes 4 k) ++ post))
    (hp : s.pos = pre.length) (hv : s.validate = true) (hk : k < 2 ^ 32)
    (hcrc : k = crcFinalize (crcUpd s.crc [4])) :
    LogReader.next s = .ok (.endRecord,
      { s with pos := s.pos + 5, read_bytes := s.read_bytes + 5, crc := crcInit }) := by
  have h1 : readBuf s 1 = some ([4],
      { s with pos := s.pos + 1, read_bytes := s.read_bytes + 1, crc := crcUpd s.crc [4] }) := by
    apply readBuf_spec pre [4] (leBytes 4 k ++ post) s 1 _ hp rfl hv
    rw [hf]
    simp
  have h2 : readRaw
      { s with pos := s.pos + 1, read_bytes := s.read_bytes + 1, crc := crcUpd s.crc [4] } 4
      = some (leBytes 4 k,
        { s with pos := s.pos + 1 + 4, read_bytes := s.read_bytes + 1 + 4,
                 crc := crcUpd s.crc [4] }) := by
    exact readRaw_spec (pre ++ [4]) (leBytes 4 k) post
      { s with pos := s.pos + 1, read_bytes := s.read_bytes + 1, crc := crcUpd s.crc [4] } 4
      (by rw [hf]; simp) (by rw [hp]; simp) (leBytes_length _ _)
  have hfle : fromLE (leBytes 4 k) = k := fromLE_leBytes_of_lt 4 k (by norm_num at hk ⊢; omega)
  rw [hv] at h1 h2
  simp [LogReader.next, h1, h2, hfle, hv, ← hcrc]

set_option maxHeartbeats 2000000 in
theorem decodeBody_spec (ents : List Ent) :
    ∀ (fuel : Nat) (s : ReaderState) (pre tail : List Nat) (k : Nat),
      s.validate = true →
      (∀ e ∈ ents, EntWF e) →
      ents.length < fuel →
      s.file = pre ++ ((ents.flatMap encEnt ++ (4 :: leBytes 4 k)) ++ tail) →
      s.pos = pre.length →
      k < 2 ^ 32 →
      k = crcFinalize (crcUpd s.crc (ents.flatMap encEnt ++ [4])) →
      ∃ sf, decodeBody fuel s (lensOf ents) = .ok (decOf ents, sf) := by
  induction ents with
  | nil =>
    intro fuel s pre tail k hv hwf hfuel hf hp hk hcrc
    obtain ⟨f, rfl⟩ : ∃ f, fuel = f + 1 := ⟨fuel - 1, by omega⟩
    have hnext := next_endRecord pre tail s k (by rw [hf]; simp) hp hv hk (by simpa using hcrc)
    refine ⟨{ s with pos := s.pos + 5, read_bytes := s.read_bytes + 5, crc := crcInit }, ?_⟩
    simp [decodeBody, hnext, lensOf, decOf]
  | cons e es ih =>
    intro fuel s pre tail k hv hwf hfuel hf hp hk hcrc
    obtain ⟨f, rfl⟩ : ∃ f, fuel = f + 1 := ⟨fuel - 1, by omega⟩
    have hwfe := hwf e (List.mem_cons_self _ _)
    have hwfes : ∀ x ∈ es, EntWF x := fun x hx => hwf x (List.mem_cons_of_mem _ hx)
    have hfuel2 : es.length < f := by
      simp only [List.length_cons] at hfuel
      omega
    cases e with
    | idx t i m ch =>
      obtain ⟨ht, hi, hm, hchlen, hchb⟩ := hwfe
      have hsublen : (subEntries m ch).length = popcount m * ENTRY_BYTES :=
        subEntries_length m ch hm hchlen
      have hnext := next_insertIndex pre
        (leBytes 8 m ++ (subEntries m ch ++ (es.flatMap encEnt ++ ((4 :: leBytes 4 k) ++ tail))))
        s t i (by rw [hf]; simp [encEnt]) hp hv ht hi
      have hr1 : LogReader.read
          { s with pos := s.pos + 11, read_bytes := s.read_bytes + 11,
                   crc := crcUpd s.crc (2 :: (leBytes 2 t ++ leBytes 8 i)),
                   clearedIndex := s.clearedIndex ++ [(t, i)] } 8
          = some (leBytes 8 m,
            { s with pos := s.pos + 11 + 8, read_bytes := s.read_bytes + 11 + 8,
                     crc := crcUpd (crcUpd s.crc (2 :: (leBytes 2 t ++ leBytes 8 i)))
                       (leBytes 8 m),
                     clearedIndex := s.clearedIndex ++ [(t, i)] }) := by
        exact read_spec (pre ++ (2 :: (leBytes 2 t ++ leBytes 8 i))) (leBytes 8 m)
          (subEntries m ch ++ (es.flatMap encEnt ++ ((4 :: leBytes 4 k) ++ tail)))
          { s with pos := s.pos + 11, read_bytes := s.read_bytes + 11,
                   crc := crcUpd s.crc (2 :: (leBytes 2 t ++ leBytes 8 i)),
                   clearedIndex := s.clearedIndex ++ [(t, i)] } 8
          (by rw [hf]; simp [encEnt]) (by rw [hp]; simp [leBytes_length])
          (leBytes_length _ _) hv
      have hr2 : LogReader.read
          { s with pos := s.pos + 11 + 8, read_bytes := s.read_bytes + 11 + 8,
                   crc := crcUpd (crcUpd s.crc (2 :: (leBytes 2 t ++ leBytes 8 i)))
                     (leBytes 8 m),
                   clearedIndex := s.clearedIndex ++ [(t, i)] } (subEntries m ch).length
          = some (subEntries m ch,
            { s with pos := s.pos + 11 + 8 + (subEntries m ch).length,
                     read_bytes := s.read_bytes + 11 + 8 + (subEntries m ch).length,
                     crc := crcUpd (crcUpd (crcUpd s.crc (2 :: (leBytes 2 t ++ leBytes 8 i)))
                       (leBytes 8 m)) (subEntries m ch),
                     clearedIndex := s.clearedIndex ++ [(t, i)] }) := by
        exact read_spec (pre ++ (2 :: (leBytes 2 t ++ leBytes 8 i)) ++ leBytes 8 m)
          (subEntries m ch)
          (es.flatMap encEnt ++ ((4 :: leBytes 4 k) ++ tail))
          { s with pos := s.pos + 11 + 8, read_bytes := s.read_bytes + 11 + 8,
                   crc := crcUpd (crcUpd s.crc (2 :: (leBytes 2 t ++ leBytes 8 i)))
                     (leBytes 8 m),
                   clearedIndex := s.clearedIndex ++ [(t, i)] } (subEntries m ch).length
          (by rw [hf]; simp [encEnt]) (by rw [hp]; simp [leBytes_length])
          rfl hv
      have hfle : fromLE (leBytes 8 m) = m :=
        fromLE_leBytes_of_lt 8 m (by norm_num at hm ⊢; omega)
      have hrec := ih f
        { s with pos := s.pos + 11 + 8 + (subEntries m ch).length,
                 read_bytes := s.read_bytes + 11 + 8 + (subEntries m ch).length,
                 crc := crcUpd (crcUpd (crcUpd s.crc (2 :: (leBytes 2 t ++ leBytes 8 i)))
                   (leBytes 8 m)) (subEntries m ch),
                 clearedIndex := s.clearedIndex ++ [(t, i)] }
        (pre ++ (2 :: (leBytes 2 t ++ leBytes 8 i)) ++ leBytes 8 m ++ subEntries m ch)
        tail k hv hwfes hfuel2
        (by rw [hf]; simp [encEnt])
        (by rw [hp]; simp [leBytes_length]; omega)
        hk
        (by
          rw [hcrc]
          have hsplit : (Ent.idx t i m ch :: es).flatMap encEnt ++ [4]
              = (2 :: (leBytes 2 t ++ leBytes 8 i))
                ++ (leBytes 8 m ++ (subEntries m ch ++ (es.flatMap encEnt ++ [4]))) := by
            simp [encEnt]
          rw [hsplit, crcUpd_append, crcUpd_append, crcUpd_append])
      obtain ⟨sf, hsf⟩ := hrec
      refine ⟨sf, ?_⟩
      show decodeBody (f + 1) s (lensOf es) = _
      simp only [decodeBody, hnext, hfle, ← hsublen, hr1, hr2, hsf]
      simp [decOf]
    | val t i d =>
      obtain ⟨ht, hi, hdb⟩ := hwfe
      have hnext := next_insertValue pre
        (d ++ (es.flatMap encEnt ++ ((4 :: leBytes 4 k) ++ tail)))
        s t i (by rw [hf]; simp [encEnt]) hp hv ht hi
      have hr1 : LogReader.read
          { s with pos := s.pos + 11, read_bytes := s.read_bytes + 11,
                   crc := crcUpd s.crc (3 :: (leBytes 2 t ++ leBytes 8 i)),
                   clearedValues := s.clearedValues ++ [(t, i)] } d.length
          = some (d,
            { s with pos := s.pos + 11 + d.length,
                     read_bytes := s.read_bytes + 11 + d.length,
                     crc := crcUpd (crcUpd s.crc (3 :: (leBytes 2 t ++ leBytes 8 i))) d,
                     clearedValues := s.clearedValues ++ [(t, i)] }) := by
        exact read_spec (pre ++ (3 :: (leBytes 2 t ++ leBytes 8 i))) d
          (es.flatMap encEnt ++ ((4 :: leBytes 4 k) ++ tail))
          { s with pos := s.pos + 11, read_bytes := s.read_bytes + 11,
                   crc := crcUpd s.crc (3 :: (leBytes 2 t ++ leBytes 8 i)),
                   clearedValues := s.clearedValues ++ [(t, i)] } d.length
          (by rw [hf]; simp [encEnt]) (by rw [hp]; simp [leBytes_length])
          rfl hv
      have hrec := ih f
        { s with pos := s.pos + 11 + d.length,
                 read_bytes := s.read_bytes + 11 + d.length,
                 crc := crcUpd (crcUpd s.crc (3 :: (leBytes 2 t ++ leBytes 8 i))) d,
                 clearedValues := s.clearedValues ++ [(t, i)] }
        (pre ++ (3 :: (leBytes 2 t ++ leBytes 8 i)) ++ d)
        tail k hv hwfes hfuel2
        (by rw [hf]; simp [encEnt])
        (by rw [hp]; simp [leBytes_length]; omega)
        hk
        (by
          rw [hcrc]
          have hsplit : (Ent.val t i d :: es).flatMap encEnt ++ [4]
              = (3 :: (leBytes 2 t ++ leBytes 8 i)) ++ (d ++ (es.flatMap encEnt ++ [4])) := by
            simp [encEnt]
          rw [hsplit, crcUpd_append, crcUpd_append])
      obtain ⟨sf, hsf⟩ := hrec
      refine ⟨sf, ?_⟩
      show decodeBody (f + 1) s (d.length :: lensOf es) = _
      simp only [decodeBody, hnext, hr1, hsf]
      simp [decOf]
    | drop t =>
      have ht := hwfe
      have hnext := next_dropTable pre
        (es.flatMap encEnt ++ ((4 :: leBytes 4 k) ++ tail))
        s t (by rw [hf]; simp [encEnt]) hp hv ht
      have hrec := ih f
        { s with pos := s.pos + 3, read_bytes := s.read_bytes + 3,
                 crc := crcUpd s.crc (5 :: leBytes 2 t) }
        (pre ++ (5 :: leBytes 2 t))
        tail k hv hwfes hfuel2
        (by rw [hf]; simp [encEnt])
        (by rw [hp]; simp [leBytes_length])
        hk
        (by
          rw [hcrc]
          have hsplit : (Ent.drop t :: es).flatMap encEnt ++ [4]
              = (5 :: leBytes 2 t) ++ (es.flatMap encEnt ++ [4]) := by
            simp [encEnt]
          rw [hsplit, crcUpd_append])
      obtain ⟨sf, hsf⟩ := hrec
      refine ⟨sf, ?_⟩
      show decodeBody (f + 1) s (lensOf es) = _
      simp only [decodeBody, hnext, hsf]
      simp [decOf]

theorem subEntries_subset (m : Nat) (ch : List Nat) : ∀ b ∈ subEntries m ch, b ∈ ch := by
  rw [subEntries_eq_flatMap]
  intro b hb
  rw [List.mem_flatMap] at hb
  obtain ⟨j, _, hj⟩ := hb
  exact List.drop_subset _ _ (List.take_subset _ _ hj)

theorem encEnt_bytes (e : Ent) (h : EntWF e) : ∀ b ∈ encEnt e, b < 256 := by
  cases e with
  | idx t i m ch =>
    obtain ⟨ht, hi, hm, hlen, hb⟩ := h
    intro b hmem
    simp only [encEnt, List.mem_cons, List.mem_append] at hmem
    rcases hmem with rfl | hmem
    · omega
    · rcases hmem with ((h1 | h1) | h1) | h1
      · exact leBytes_lt _ _ _ h1
      · exact leBytes_lt _ _ _ h1
      · exact leBytes_lt _ _ _ h1
      · exact hb _ (subEntries_subset m ch b h1)
  | val t i d =>
    obtain ⟨ht, hi, hdb⟩ := h
    intro b hmem
    simp only [encEnt, List.mem_cons, List.mem_append] at hmem
    rcases hmem with rfl | hmem
    · omega
    · rcases hmem with (h1 | h1) | h1
      · exact leBytes_lt _ _ _ h1
      · exact leBytes_lt _ _ _ h1
      · exact hdb _ h1
  | drop t =>
    intro b hmem
    simp only [encEnt, List.mem_cons] at hmem
    rcases hmem with rfl | h1
    · omega
    · exact leBytes_lt _ _ _ h1

/-- C3: round-trip of the record codec.  For a well-formed `LogChange`,
reading the bytes produced by `to_file` from the start with `validate=true`
yields `BeginRecord` carrying the change's record id, then exactly the
change's insert-index, insert-value and drop-table entries — with their
tables, slots, masks and payload bytes — then `EndRecord`, with no
corruption error.  The enactor side of the protocol (mask/sub-entry/payload
consumption) is modelled from the spec, as `db.rs`/`index.rs` are not among
the sources. -/
theorem to_file_roundtrip (c : LogChange) (h : ChangeEncWF c) :
    decodeRecord (c.entries.length + 1) (LogReader.new (LogChange.toFile c) 0 true)
      (lensOf c.entries) = .ok (c.record_id, decOf c.entries) := by
  obtain ⟨hrid, hwf⟩ := h
  have hbb : ∀ b ∈ 1 :: (leBytes 8 c.record_id ++ c.entries.flatMap encEnt ++ [4]), b < 256 := by
    intro b hmem
    simp only [List.mem_cons, List.mem_append] at hmem
    rcases hmem with rfl | hmem
    · omega
    · rcases hmem with (h1 | h1) | h1
      · exact leBytes_lt _ _ _ h1
      · rw [List.mem_flatMap] at h1
        obtain ⟨e, he, hbe⟩ := h1
        exact encEnt_bytes e (hwf e he) b hbe
      · simp at h1
        omega
  have hk : crc32 (1 :: (leBytes 8 c.record_id ++ c.entries.flatMap encEnt ++ [4])) < 2 ^ 32 :=
    crc32_lt _ hbb
  have hfile : (LogReader.new (LogChange.toFile c) 0 true).file
      = [] ++ ((1 :: leBytes 8 c.record_id)
          ++ (c.entries.flatMap encEnt
            ++ ((4 :: leBytes 4 (crc32 (1 :: (leBytes 8 c.record_id
                  ++ c.entries.flatMap encEnt ++ [4])))) ++ []))) := by
    simp [LogReader.new, LogChange.toFile]
  have hnext := next_beginRecord []
    (c.entries.flatMap encEnt
      ++ ((4 :: leBytes 4 (crc32 (1 :: (leBytes 8 c.record_id
            ++ c.entries.flatMap encEnt ++ [4])))) ++ []))
    (LogReader.new (LogChange.toFile c) 0 true) c.record_id hfile rfl rfl hrid
  have hbody := decodeBody_spec c.entries (c.entries.length + 1)
    { LogReader.new (LogChange.toFile c) 0 true with
        pos := (LogReader.new (LogChange.toFile c) 0 true).pos + 9,
        read_bytes := (LogReader.new (LogChange.toFile c) 0 true).read_bytes + 9,
        crc := crcUpd (LogReader.new (LogChange.toFile c) 0 true).crc
          (1 :: leBytes 8 c.record_id),
        record_id := c.record_id }
    (1 :: leBytes 8 c.record_id) []
    (crc32 (1 :: (leBytes 8 c.record_id ++ c.entries.flatMap encEnt ++ [4])))
    rfl hwf (by omega)
    (by
      show (LogReader.new (LogChange.toFile c) 0 true).file = _
      rw [hfile]
      simp)
    (by simp [LogReader.new, leBytes_length])
    hk
    (by
      show crc32 (1 :: (leBytes 8 c.record_id ++ c.entries.flatMap encEnt ++ [4]))
        = crcFinalize (crcUpd (crcUpd crcInit (1 :: leBytes 8 c.record_id))
            (c.entries.flatMap encEnt ++ [4]))
      rw [← crcUpd_append, crc32]
      congr 2)
  obtain ⟨sf, hsf⟩ := hbody
  simp only [decodeRecord, hnext, hsf]

/-- C3 witness: the round-trip at the concrete change `exampleChange`. -/
theorem to_file_roundtrip_witness :
    decodeRecord (exampleChange.entries.length + 1)
      (LogReader.new (LogChange.toFile exampleChange) 0 true) (lensOf exampleChange.entries)
      = .ok (9, decOf exampleChange.entries) := by
  apply to_file_roundtrip
  constructor
  · norm_num [exampleChange]
  · intro e he
    simp only [exampleChange, LogChange.entries, List.flatMap_cons, List.flatMap_nil,
      List.map_cons, List.map_nil, List.append_nil, List.nil_append, List.mem_append,
      List.mem_cons, List.mem_singleton, List.not_mem_nil, or_false] at he
    rcases he with (he | he) | he <;> subst he
    · show 4 < 2 ^ 16 ∧ 6 < 2 ^ 64 ∧ 33 < 2 ^ 64
        ∧ exampleChunk.length = CHUNK_BYTES ∧ ∀ b ∈ exampleChunk, b < 256
      refine ⟨by norm_num, by norm_num, by norm_num, by simp [exampleChunk], ?_⟩
      intro b hb
      simp only [exampleChunk, List.mem_replicate] at hb
      omega
    · show 2 < 2 ^ 16 ∧ 5 < 2 ^ 64 ∧ ∀ b ∈ [7, 7], b < 256
      exact ⟨by norm_num, by norm_num, by intro b hb; simp at hb; omega⟩
    · show (3 : Nat) < 2 ^ 16
      norm_num

/-! ### C8: repeated `insert_index` and sub-entry emission -/

theorem insert_index_get_occupied (c : LogChange) (t i sub : Nat) (d : List Nat)
    (e : Nat × Nat × List Nat) (h : overlayIdxGet c.local_index t i = some e) :
    overlayIdxGet (c.insert_index t i sub d).local_index t i
      = some (c.record_id, Nat.lor e.2.1 (1 <<< sub), d) := by
  unfold overlayIdxGet at h ⊢
  rcases hat : aget c.local_index t with _ | ov
  · rw [hat] at h
    cases h
  · rw [hat] at h
    simp only [Option.some_bind] at h
    show ((aget (aset c.local_index t
        ⟨aset ((aget c.local_index t).getD ⟨[]⟩).map i
          (c.record_id,
            match aget ((aget c.local_index t).getD ⟨[]⟩).map i with
            | some e => Nat.lor e.2.1 (1 <<< sub)
            | none => 1 <<< sub, d)⟩) t).bind (fun ov => aget ov.map i)) = _
    rw [hat]
    simp only [Option.getD_some]
    rw [aget_aset, if_pos rfl]
    simp only [Option.some_bind]
    show aget (aset ov.map i _) i = _
    rw [aget_aset_self]
    rw [h]

theorem insert_index_get_vacant (c : LogChange) (t i sub : Nat) (d : List Nat)
    (h : overlayIdxGet c.local_index t i = none) :
    overlayIdxGet (c.insert_index t i sub d).local_index t i
      = some (c.record_id, 1 <<< sub, d) := by
  unfold overlayIdxGet at h ⊢
  have hm : aget ((aget c.local_index t).getD ⟨[]⟩).map i = none := by
    rcases hat : aget c.local_index t with _ | ov
    · rfl
    · rw [hat] at h
      simp only [Option.some_bind] at h
      simpa using h
  show ((aget (aset c.local_index t
      ⟨aset ((aget c.local_index t).getD ⟨[]⟩).map i
        (c.record_id,
          match aget ((aget c.local_index t).getD ⟨[]⟩).map i with
          | some e => Nat.lor e.2.1 (1 <<< sub)
          | none => 1 <<< sub, d)⟩) t).bind (fun ov => aget ov.map i)) = _
  rw [aget_aset, if_pos rfl]
  simp only [Option.some_bind]
  show aget (aset ((aget c.local_index t).getD ⟨[]⟩).map i _) i = _
  rw [aget_aset_self, hm]

theorem insert_index_record_id (c : LogChange) (t i sub : Nat) (d : List Nat) :
    (c.insert_index t i sub d).record_id = c.record_id := rfl

theorem getLastD_map_snd {α β : Type} (l : List (α × β)) :
    ∀ (h : l ≠ []) (d : β), (l.map (fun p => p.2)).getLastD d = (l.getLast h).2 := by
  induction l with
  | nil => intro h; exact absurd rfl h
  | cons a t ih =>
    intro h d
    cases t with
    | nil => simp
    | cons b t2 =>
      rw [List.map_cons, List.getLastD_cons, List.getLast_cons (by simp)]
      exact ih (by simp) a.2

theorem insIdx_steps (t i : Nat) :
    ∀ (pairs : List (Nat × List Nat)) (c : LogChange) (m : Nat) (ch : List Nat),
      overlayIdxGet c.local_index t i = some (c.record_id, m, ch) →
      overlayIdxGet
          ((pairs.map (fun p => WriterOp.insIdx t i p.1 p.2)).foldl applyOp c).local_index t i
        = some (c.record_id,
            pairs.foldl (fun acc p => Nat.lor acc (1 <<< p.1)) m,
            (pairs.map (fun p => p.2)).getLastD ch) := by
  intro pairs
  induction pairs with
  | nil =>
    intro c m ch h
    simpa using h
  | cons p rest ih =>
    intro c m ch h
    obtain ⟨s0, c0⟩ := p
    simp only [List.map_cons, List.foldl_cons, List.getLastD_cons]
    have hstep := insert_index_get_occupied c t i s0 c0 (c.record_id, m, ch) h
    have hrid : (c.insert_index t i s0 c0).record_id = c.record_id := rfl
    have := ih (c.insert_index t i s0 c0) (Nat.lor m (1 <<< s0)) c0 (by rw [hrid]; exact hstep)
    rw [hrid] at this
    exact this

/-- C8: repeated `insert_index` calls on one writer to the same
`(table, slot)` OR `1 << sub` into the accumulated mask and overwrite the
stored chunk with the latest one (the entry stays tagged with the writer's
record id); serialization then emits exactly `popcount(mask)` sub-entries of
`ENTRY_BYTES` each, taken from the final chunk, in ascending sub-index
order: `subEntries` equals the slices of the chunk at the set-bit positions
`bitsAsc mask`, which are sorted ascending and are exactly the bits of the
mask. -/
theorem insert_index_accumulates (rid t i : Nat) (pairs : List (Nat × List Nat))
    (hne : pairs ≠ []) :
    overlayIdxGet
        (buildChange rid (pairs.map (fun p => WriterOp.insIdx t i p.1 p.2))).local_index t i
      = some (rid, pairs.foldl (fun acc p => Nat.lor acc (1 <<< p.1)) 0,
          (pairs.getLast hne).2)
    ∧ (∀ mask chunk, mask < 2 ^ 64 → chunk.length = CHUNK_BYTES →
        subEntries mask chunk
            = (bitsAsc mask).flatMap (fun j => (chunk.drop (j * ENTRY_BYTES)).take ENTRY_BYTES)
          ∧ (bitsAsc mask).Pairwise (· < ·)
          ∧ (∀ j, j ∈ bitsAsc mask ↔ mask.testBit j = true)
          ∧ (subEntries mask chunk).length = popcount mask * ENTRY_BYTES) := by
  constructor
  · obtain ⟨p0, rest, rfl⟩ : ∃ p0 rest, pairs = p0 :: rest := by
      cases pairs with
      | nil => exact absurd rfl hne
      | cons a b => exact ⟨a, b, rfl⟩
    obtain ⟨s0, c0⟩ := p0
    unfold buildChange
    simp only [List.map_cons, List.foldl_cons]
    have h0 : overlayIdxGet (LogChange.new rid).local_index t i = none := rfl
    have hstep := insert_index_get_vacant (LogChange.new rid) t i s0 c0 h0
    have hrid : ((LogChange.new rid).insert_index t i s0 c0).record_id = rid := rfl
    have happ : applyOp (LogChange.new rid) (WriterOp.insIdx t i s0 c0)
        = (LogChange.new rid).insert_index t i s0 c0 := rfl
    rw [happ]
    have := insIdx_steps t i rest ((LogChange.new rid).insert_index t i s0 c0)
      (1 <<< s0) c0 (by rw [hrid]; exact hstep)
    rw [hrid] at this
    rw [this]
    have hmask : rest.foldl (fun acc p => Nat.lor acc (1 <<< p.1)) (1 <<< s0)
        = ((s0, c0) :: rest).foldl (fun acc p => Nat.lor acc (1 <<< p.1)) 0 := by
      simp only [List.foldl_cons]
      congr 1
      exact (Nat.zero_or _).symm
    have hlast : (rest.map (fun p => p.2)).getLastD c0 = (((s0, c0) :: rest).getLast hne).2 := by
      cases rest with
      | nil => simp
      | cons q qs =>
        rw [List.getLast_cons (by simp)]
        exact getLastD_map_snd (q :: qs) (by simp) c0
    rw [hmask, hlast]
    simp only [List.foldl_cons]
  · intro mask chunk hm hc
    exact ⟨subEntries_eq_flatMap mask chunk, bitsAsc_sorted mask,
      fun j => mem_bitsAsc mask j, subEntries_length mask chunk hm hc⟩

/-- C8 witness: `insert_index(3, 42, sub=0, chunkA)` then
`insert_index(3, 42, sub=5, chunkB)` leaves the entry with mask `0b100001`
(= 33) and chunk `chunkB`, and serialization emits the two sub-entries from
`chunkB` at sub-indices 0 and 5, in that order. -/
theorem insert_index_accumulates_witness :
    overlayIdxGet
        (buildChange 1
          ([(0, chunkA), (5, chunkB)].map (fun p => WriterOp.insIdx 3 42 p.1 p.2))).local_index
        3 42
      = some (1, 33, chunkB)
    ∧ subEntries 33 chunkB
      = (chunkB.drop (0 * ENTRY_BYTES)).take ENTRY_BYTES
        ++ ((chunkB.drop (5 * ENTRY_BYTES)).take ENTRY_BYTES ++ []) := by
  have h := insert_index_accumulates 1 3 42 [(0, chunkA), (5, chunkB)] (by simp)
  constructor
  · rw [h.1]
    rfl
  · rw [(h.2 33 chunkB (by norm_num) (by simp [chunkB])).1]
    rfl

/-- `readBuf` advances the cursor and the byte count by exactly `n` and
touches neither the file nor the validation flag. -/
theorem readBuf_delta (s s' : ReaderState) (n : Nat) (bs : List Nat)
    (h : readBuf s n = some (bs, s')) :
    s'.pos = s.pos + n ∧ s'.read_bytes = s.read_bytes + n ∧
      s'.file = s.file ∧ s'.validate = s.validate := by
  unfold readBuf readExact at h
  by_cases hle : s.pos + n ≤ s.file.length
  · rw [if_pos hle] at h
    simp only [Option.map_some', Option.some.injEq, Prod.mk.injEq] at h
    obtain ⟨-, h2⟩ := h
    subst h2
    exact ⟨rfl, rfl, rfl, rfl⟩
  · rw [if_neg hle] at h
    simp at h

/-- `readRaw` advances the cursor and the byte count by exactly `n` and
touches neither the file nor the validation flag. -/
theorem readRaw_delta (s s' : ReaderState) (n : Nat) (bs : List Nat)
    (h : readRaw s n = some (bs, s')) :
    s'.pos = s.pos + n ∧ s'.read_bytes = s.read_bytes + n ∧
      s'.file = s.file ∧ s'.validate = s.validate := by
  unfold readRaw readExact at h
  by_cases hle : s.pos + n ≤ s.file.length
  · rw [if_pos hle] at h
    simp only [Option.map_some', Option.some.injEq, Prod.mk.injEq] at h
    obtain ⟨-, h2⟩ := h
    subst h2
    exact ⟨rfl, rfl, rfl, rfl⟩
  · rw [if_neg hle] at h
    simp at h

/-- Every successful `LogReader::next` advances the cursor and the byte
count by the same amount and preserves the file and the validation flag. -/
theorem next_delta (s s' : ReaderState) (a : LogAction)
    (h : LogReader.next s = .ok (a, s')) :
    ∃ d, s'.pos = s.pos + d ∧ s'.read_bytes = s.read_bytes + d ∧
      s'.file = s.file ∧ s'.validate = s.validate := by
  unfold LogReader.next at h
  cases h1 : readBuf s 1 with
  | none => simp [h1] at h
  | some p1 =>
    obtain ⟨tb, s1⟩ := p1
    simp only [h1] at h
    obtain ⟨hp1, hb1, hf1, hv1⟩ := readBuf_delta s s1 1 tb h1
    split at h
    · cases h2 : readBuf s1 8 with
      | none => simp [h2] at h
      | some p2 =>
        obtain ⟨rb, s2⟩ := p2
        simp only [h2, Except.ok.injEq, Prod.mk.injEq] at h
        obtain ⟨-, h4⟩ := h
        subst h4
        obtain ⟨hp2, hb2, hf2, hv2⟩ := readBuf_delta s1 s2 8 rb h2
        refine ⟨9, ?_, ?_, ?_, ?_⟩
        · show s2.pos = s.pos + 9
          omega
        · show s2.read_bytes = s.read_bytes + 9
          omega
        · show s2.file = s.file
          rw [hf2, hf1]
        · show s2.validate = s.validate
          rw [hv2, hv1]
    · cases h2 : readBuf s1 2 with
      | none => simp [h2] at h
      | some p2 =>
        obtain ⟨t2, s2⟩ := p2
        simp only [h2] at h
        obtain ⟨hp2, hb2, hf2, hv2⟩ := readBuf_delta s1 s2 2 t2 h2
        cases h3 : readBuf s2 8 with
        | none => simp [h3] at h
        | some p3 =>
          obtain ⟨i8, s3⟩ := p3
          simp only [h3, Except.ok.injEq, Prod.mk.injEq] at h
          obtain ⟨-, h4⟩ := h
          subst h4
          obtain ⟨hp3, hb3, hf3, hv3⟩ := readBuf_delta s2 s3 8 i8 h3
          refine ⟨11, ?_, ?_, ?_, ?_⟩
          · show s3.pos = s.pos + 11
            omega
          · show s3.read_bytes = s.read_bytes + 11
            omega
          · show s3.file = s.file
            rw [hf3, hf2, hf1]
          · show s3.validate = s.validate
            rw [hv3, hv2, hv1]
    · cases h2 : readBuf s1 2 with
      | none => simp [h2] at h
      | some p2 =>
        obtain ⟨t2, s2⟩ := p2
        simp only [h2] at h
        obtain ⟨hp2, hb2, hf2, hv2⟩ := readBuf_delta s1 s2 2 t2 h2
        cases h3 : readBuf s2 8 with
        | none => simp [h3] at h
        | some p3 =>
          obtain ⟨i8, s3⟩ := p3
          simp only [h3, Except.ok.injEq, Prod.mk.injEq] at h
          obtain ⟨-, h4⟩ := h
          subst h4
          obtain ⟨hp3, hb3, hf3, hv3⟩ := readBuf_delta s2 s3 8 i8 h3
          refine ⟨11, ?_, ?_, ?_, ?_⟩
          · show s3.pos = s.pos + 11
            omega
          · show s3.read_bytes = s.read_bytes + 11
            omega
          · show s3.file = s.file
            rw [hf3, hf2, hf1]
          · show s3.validate = s.validate
            rw [hv3, hv2, hv1]
    · cases h2 : readRaw s1 4 with
      | none => simp [h2] at h
      | some p2 =>
        obtain ⟨cb, s2⟩ := p2
        simp only [h2] at h
        obtain ⟨hp2, hb2, hf2, hv2⟩ := readRaw_delta s1 s2 4 cb h2
        by_cases hv : s.validate = true
        · rw [if_pos hv] at h
          split at h
          · simp at h
          · simp only [Except.ok.injEq, Prod.mk.injEq] at h
            obtain ⟨-, h4⟩ := h
            subst h4
            refine ⟨5, ?_, ?_, ?_, ?_⟩
            · show s2.pos = s.pos + 5
              omega
            · show s2.read_bytes = s.read_bytes + 5
              omega
            · show s2.file = s.file
              rw [hf2, hf1]
            · show s2.validate = s.validate
              rw [hv2, hv1]
        · rw [if_neg hv] at h
          simp only [Except.ok.injEq, Prod.mk.injEq] at h
          obtain ⟨-, h4⟩ := h
          subst h4
          refine ⟨5, ?_, ?_, ?_, ?_⟩
          · omega
          · omega
          · rw [hf2, hf1]
          · rw [hv2, hv1]
    · cases h2 : readBuf s1 2 with
      | none => simp [h2] at h
      | some p2 =>
        obtain ⟨t2, s2⟩ := p2
        simp only [h2, Except.ok.injEq, Prod.mk.injEq] at h
        obtain ⟨-, h4⟩ := h
        subst h4
        obtain ⟨hp2, hb2, hf2, hv2⟩ := readBuf_delta s1 s2 2 t2 h2
        refine ⟨3, ?_, ?_, ?_, ?_⟩
        · omega
        · omega
        · rw [hf2, hf1]
        · rw [hv2, hv1]
    · simp at h

/-- Every successful cursor call advances the position and the byte count
in lock step and preserves the file and the validation flag. -/
theorem step_delta (s s' : ReaderState) (h : ReaderStep s s') :
    ∃ d, s'.pos = s.pos + d ∧ s'.read_bytes = s.read_bytes + d ∧
      s'.file = s.file ∧ s'.validate = s.validate := by
  cases h with
  | next a hn => exact next_delta s s' a hn
  | read n bs hr =>
    obtain ⟨hp, hb, hf, hv⟩ := readBuf_delta s s' n bs hr
    exact ⟨n, hp, hb, hf, hv⟩

/-- Along any run of successful cursor calls, the cursor stays exactly
`read_bytes - read_bytes₀` past where it started. -/
theorem reached_delta (s0 s : ReaderState) (h : Reached s0 s) :
    ∃ d, s.pos = s0.pos + d ∧ s.read_bytes = s0.read_bytes + d ∧
      s.file = s0.file ∧ s.validate = s0.validate := by
  induction h with
  | refl => exact ⟨0, rfl, rfl, rfl, rfl⟩
  | step s2 s3 h1 h2 ih =>
    obtain ⟨d1, hp1, hb1, hf1, hv1⟩ := ih
    obtain ⟨d2, hp2, hb2, hf2, hv2⟩ := step_delta s2 s3 h2
    exact ⟨d1 + d2, by omega, by omega, hf2.trans hf1, hv2.trans hv1⟩

/-- C9 counterexample: a `LogReader` created while the underlying file
cursor stands at offset 1 — exactly what `read_next` produces for every
record after the first, since each record gets a fresh reader on the
partially-consumed file — performs a successful `next`, yet `reset` leaves
the cursor at offset 1, not at the start of the file as the claim states. -/
theorem reset_not_start_of_file :
    ∃ s : ReaderState,
      Reached (LogReader.new [9, 5, 2, 0] 1 true) s ∧
        (LogReader.reset s).pos ≠ 0 := by
  refine ⟨{ file := [9, 5, 2, 0], pos := 4, record_id := 0, read_bytes := 3,
            crc := crcUpd (crcUpd crcInit [5]) [2, 0], validate := true,
            clearedIndex := [], clearedValues := [] },
    Reached.step _ _ _ (Reached.refl _)
      (ReaderStep.next _ _ (.dropTable 2) rfl), by decide⟩

/-- C9 (amended): from any state reached by successful `next`/`read` calls,
`reset` returns the reader to exactly its creation state: the cursor moves
back `read_bytes` bytes to the offset at which the reader was created (the
start of the file only when the reader was created there), and the record
id, byte count, CRC state and clear list are cleared. -/
theorem reset_returns_to_creation (file : List Nat) (p : Nat) (v : Bool)
    (s : ReaderState) (h : Reached (LogReader.new file p v) s) :
    LogReader.reset s = LogReader.new file p v := by
  obtain ⟨d, hp, hb, hf, hv⟩ := reached_delta (LogReader.new file p v) s h
  simp only [LogReader.new] at hp hb hf hv
  cases s with
  | mk f pos rid rb crc val ci cv =>
    simp only at hp hb hf hv
    subst hf hv
    simp only [LogReader.reset, LogReader.new, ReaderState.mk.injEq, and_true,
      true_and]
    omega

/-- C9 witness: the reader of the counterexample file, created at offset 1
and stepped once over the `DropTable` entry, is sent back by `reset` to its
creation state at offset 1. -/
theorem reset_returns_to_creation_witness :
    LogReader.reset
        { file := [9, 5, 2, 0], pos := 4, record_id := 0, read_bytes := 3,
          crc := crcUpd (crcUpd crcInit [5]) [2, 0], validate := true,
          clearedIndex := [], clearedValues := [] }
      = LogReader.new [9, 5, 2, 0] 1 true := by
  apply reset_returns_to_creation
  exact Reached.step _ _ _ (Reached.refl _)
    (ReaderStep.next _ _ (.dropTable 2) rfl)

/-- C5 counterexample: with the flushing slot empty, a reader that exists
and has signalled end-of-file (reading state `Idle`) is NOT moved to the
cleanup queue: the whole reading→cleanup step of `flush_one` sits inside
the `if flushing.is_some()` branch, so the call leaves the state untouched
and reports `cleanup = false`. -/
theorem flush_one_skips_idle_reader :
    flushOne { flushing := none, reading := some (7, 42),
               reading_state := ReadingState.idle, cleanup_queue := [],
               appending := none } 0
      = some ({ flushing := none, reading := some (7, 42),
                reading_state := ReadingState.idle, cleanup_queue := [],
                appending := none }, false, false, false) := rfl

/-- C5 (amended): the reading→cleanup and flushing→reading steps of
`flush_one` run only when the flushing slot is occupied (an idle reader is
left in place otherwise, see the counterexample). When the flushing slot
holds `f` and the reading state is not `Reading` — the condition the
`done_reading_cv` wait establishes before this code runs — the call
succeeds: an existing reader's file is pushed on the cleanup queue and the
cleanup flag is set, and `f` is installed in the reading slot rewound to
offset 0, with the reading state set to `Reading` and the read_next flag
set. -/
theorem flush_one_rotates (s : FlushState) (m : Nat) (f : Nat × Nat)
    (hf : s.flushing = some f) (hr : s.reading_state ≠ ReadingState.reading) :
    ∃ s' fl, flushOne s m = some (s', fl, true, s.reading.isSome) ∧
      s'.reading = some (f.1, 0) ∧
      s'.reading_state = ReadingState.reading ∧
      (∀ r, s.reading = some r → s'.cleanup_queue = s.cleanup_queue ++ [r.1]) ∧
      (s.reading = none → s'.cleanup_queue = s.cleanup_queue) := by
  unfold flushOne
  rw [if_neg (by simp [hf, hr])]
  cases hrd : s.reading with
  | some r =>
    simp only [hf, hrd]
    by_cases ha : 0 < (s.appending.map Prod.snd).getD 0 ∧
        m < (s.appending.map Prod.snd).getD 0
    · rw [if_pos ha]
      refine ⟨_, _, rfl, rfl, rfl, ?_, ?_⟩
      · intro r' hr'
        cases hr'
        rfl
      · intro hnone
        cases hnone
    · rw [if_neg ha]
      refine ⟨_, _, rfl, rfl, rfl, ?_, ?_⟩
      · intro r' hr'
        cases hr'
        rfl
      · intro hnone
        cases hnone
  | none =>
    simp only [hf, hrd]
    by_cases ha : 0 < (s.appending.map Prod.snd).getD 0 ∧
        m < (s.appending.map Prod.snd).getD 0
    · rw [if_pos ha]
      refine ⟨_, _, rfl, rfl, rfl, ?_, fun _ => rfl⟩
      intro r' hr'
      cases hr'
    · rw [if_neg ha]
      refine ⟨_, _, rfl, rfl, rfl, ?_, fun _ => rfl⟩
      intro r' hr'
      cases hr'

/-- C5 witness: a state with flushing slot `(3, 100)`, an idle reader
`(7, 42)` and a 50-byte appending log, flushed with `min_size = 10`: the
reader's file id 7 joins the cleanup queue, file 3 becomes the reader at
offset 0, and both flags are reported. -/
theorem flush_one_rotates_witness :
    ∃ s' fl,
      flushOne { flushing := some (3, 100), reading := some (7, 42),
                 reading_state := ReadingState.idle, cleanup_queue := [9],
                 appending := some (1, 50) } 10
        = some (s', fl, true, true) ∧
      s'.reading = some (3, 0) ∧
      s'.reading_state = ReadingState.reading ∧
      (∀ r, (some ((7, 42) : Nat × Nat)) = some r →
        s'.cleanup_queue = [9] ++ [r.1]) ∧
      ((some ((7, 42) : Nat × Nat)) = none → s'.cleanup_queue = [9]) :=
  flush_one_rotates _ 10 (3, 100) rfl (by decide)

/-- C4 counterexample: `clean_logs(1)` on an empty cleanup queue does not
take "up to" one file — `VecDeque::drain(0..1)` panics when the queue holds
fewer than `1` element, so the call never completes. -/
theorem clean_logs_empty_queue_panics :
    cleanLogs { cleanup_queue := [], log_pool := [], deleted := [] } 1 = none := rfl

/-- C4 (amended): whenever `count` does not exceed the cleanup-queue length
(`drain(0..count)` panics otherwise, see the counterexample), `clean_logs`
takes exactly the first `count` files off the queue, truncates each to
length 0, and pushes them into the pool kept sorted ascending by id;
afterwards the pool holds at most `MAX_LOG_POOL_SIZE` files, every file
unlinked in the process has an id at least as large as every kept one, and
the kept and unlinked files together are exactly the old pool plus the
drained files. -/
theorem clean_logs_spec (s : CleanState) (count : Nat)
    (h : count ≤ s.cleanup_queue.length) :
    ∃ q, cleanLogs s count = some q ∧
      q.1.cleanup_queue = s.cleanup_queue.drop count ∧
      q.2 = !(s.cleanup_queue.drop count).isEmpty ∧
      q.1.log_pool.Pairwise (fun a b => a.1 ≤ b.1) ∧
      q.1.log_pool.length ≤ MAX_LOG_POOL_SIZE ∧
      (∀ p ∈ q.1.log_pool, p ∈ s.log_pool ∨ p.2 = 0) ∧
      q.1.deleted = s.deleted ++ q.1.deleted.drop s.deleted.length ∧
      (∀ p ∈ q.1.log_pool, ∀ i ∈ q.1.deleted.drop s.deleted.length, p.1 ≤ i) ∧
      List.Perm (q.1.log_pool.map Prod.fst ++ q.1.deleted.drop s.deleted.length)
        (s.log_pool.map Prod.fst ++ (s.cleanup_queue.take count).map Prod.fst) := by
  have htrans : ∀ (a b c : Nat × Nat),
      (fun a b : Nat × Nat => decide (a.1 ≤ b.1)) a b = true →
      (fun a b : Nat × Nat => decide (a.1 ≤ b.1)) b c = true →
      (fun a b : Nat × Nat => decide (a.1 ≤ b.1)) a c = true := by
    intro a b c hab hbc
    simp only [decide_eq_true_eq] at hab hbc ⊢
    omega
  have htotal : ∀ (a b : Nat × Nat),
      ((fun a b : Nat × Nat => decide (a.1 ≤ b.1)) a b ||
        (fun a b : Nat × Nat => decide (a.1 ≤ b.1)) b a) = true := by
    intro a b
    simp only [Bool.or_eq_true, decide_eq_true_eq]
    omega
  have hsorted : ((s.log_pool ++ (s.cleanup_queue.take count).map
        (fun p : Nat × Nat => (p.1, (0 : Nat)))).mergeSort
        (fun a b => a.1 ≤ b.1)).Pairwise (fun a b : Nat × Nat => a.1 ≤ b.1) :=
    (List.sorted_mergeSort htrans htotal
      (s.log_pool ++ (s.cleanup_queue.take count).map (fun p : Nat × Nat => (p.1, (0 : Nat))))).imp
      (fun hab => of_decide_eq_true hab)
  refine ⟨({ cleanup_queue := s.cleanup_queue.drop count,
             log_pool := ((s.log_pool ++ (s.cleanup_queue.take count).map
                 (fun p : Nat × Nat => (p.1, (0 : Nat)))).mergeSort
                 (fun a b => a.1 ≤ b.1)).take MAX_LOG_POOL_SIZE,
             deleted := s.deleted ++ (((s.log_pool ++
                 (s.cleanup_queue.take count).map (fun p : Nat × Nat => (p.1, (0 : Nat)))).mergeSort
                 (fun a b => a.1 ≤ b.1)).drop MAX_LOG_POOL_SIZE).map Prod.fst },
           !(s.cleanup_queue.drop count).isEmpty),
    ?_, rfl, rfl, ?_, ?_, ?_, ?_, ?_, ?_⟩
  · unfold cleanLogs
    rw [if_pos h]
  · exact hsorted.sublist (List.take_sublist _ _)
  · rw [List.length_take]
    exact Nat.min_le_left _ _
  · intro p hp
    have hp2 := List.mem_of_mem_take hp
    have hp3 := (List.mergeSort_perm _ _).mem_iff.mp hp2
    rcases List.mem_append.mp hp3 with hl | hrm
    · exact Or.inl hl
    · right
      rcases List.mem_map.mp hrm with ⟨b, hb, rfl⟩
      rfl
  · rw [List.drop_left]
  · rw [List.drop_left]
    intro p hp i hi
    rcases List.mem_map.mp hi with ⟨b, hb, rfl⟩
    exact (List.pairwise_append.mp
      (by rw [List.take_append_drop]; exact hsorted)).2.2 p hp b hb
  · rw [List.drop_left]
    have h1 : (((s.log_pool ++ (s.cleanup_queue.take count).map
          (fun p : Nat × Nat => (p.1, (0 : Nat)))).mergeSort
          (fun a b => a.1 ≤ b.1)).take MAX_LOG_POOL_SIZE).map Prod.fst ++
        (((s.log_pool ++ (s.cleanup_queue.take count).map
          (fun p : Nat × Nat => (p.1, (0 : Nat)))).mergeSort
          (fun a b => a.1 ≤ b.1)).drop MAX_LOG_POOL_SIZE).map Prod.fst
        = ((s.log_pool ++ (s.cleanup_queue.take count).map
          (fun p : Nat × Nat => (p.1, (0 : Nat)))).mergeSort
          (fun a b => a.1 ≤ b.1)).map Prod.fst := by
      rw [← List.map_append, List.take_append_drop]
    rw [h1]
    refine ((List.mergeSort_perm _ _).map Prod.fst).trans ?_
    rw [List.map_append, List.map_map]
    rfl

/-- C4 witness: cleaning 2 of the 3 queued files `(3, 5 bytes)`, `(1, 7
bytes)`, `(8, 2 bytes)` into the pool `[(2, 0)]`: files 3 and 1 are
truncated and pooled, the pool comes out sorted as ids `[1, 2, 3]` within
the cap, nothing is unlinked beyond the prior `[4]`, file `(8, 2)` stays
queued and the call reports the queue as still dirty. -/
theorem clean_logs_spec_witness :
    ∃ q, cleanLogs { cleanup_queue := [(3, 5), (1, 7), (8, 2)],
                     log_pool := [(2, 0)], deleted := [4] } 2 = some q ∧
      q.1.cleanup_queue = [(8, 2)] ∧
      q.2 = true ∧
      q.1.log_pool.Pairwise (fun a b => a.1 ≤ b.1) ∧
      q.1.log_pool.length ≤ MAX_LOG_POOL_SIZE ∧
      (∀ p ∈ q.1.log_pool, p ∈ [((2 : Nat), (0 : Nat))] ∨ p.2 = 0) ∧
      q.1.deleted = [4] ++ q.1.deleted.drop 1 ∧
      (∀ p ∈ q.1.log_pool, ∀ i ∈ q.1.deleted.drop 1, p.1 ≤ i) ∧
      List.Perm (q.1.log_pool.map Prod.fst ++ q.1.deleted.drop 1)
        ([2] ++ [3, 1]) :=
  clean_logs_spec
    { cleanup_queue := [(3, 5), (1, 7), (8, 2)], log_pool := [(2, 0)],
      deleted := [4] } 2 (by decide)

/-- The directory fold of `Log::open`: under the assumption that every
non-empty file has at least 9 bytes (otherwise `open_log_file` fails with
an I/O error), the fold collects the `(log id, first record id)` pairs of
the non-empty files in directory order, takes the max of their ids, and
deletes the zero-length files. -/
theorem openFold_spec (dir : List DirEntry) :
    ∀ (ls : List (Nat × Nat)) (m : Nat) (rm : List Nat),
      (∀ e ∈ dir, e.content.length = 0 ∨ 9 ≤ e.content.length) →
      openFold dir (ls, m, rm)
        = .ok (ls ++ (dir.filter (fun e => !(e.content.length == 0))).map
                 (fun e => (e.id, fromLE ((e.content.drop 1).take 8))),
               (dir.filter (fun e => !(e.content.length == 0))).foldl
                 (fun a e => max a e.id) m,
               rm ++ (dir.filter (fun e => e.content.length == 0)).map DirEntry.id) := by
  induction dir with
  | nil =>
    intro ls m rm h
    simp [openFold]
  | cons e tl ih =>
    intro ls m rm h
    rcases h e (List.mem_cons_self e tl) with hlen | hlen
    · have hb : (e.content.length == 0) = true := beq_iff_eq.mpr hlen
      have hacc : openAcc (ls, m, rm) e = .ok (ls, m, rm ++ [e.id]) := by
        unfold openAcc openLogFile
        rw [if_pos hlen]
      simp only [openFold, hacc]
      rw [ih _ _ _ (fun e' he' => h e' (List.mem_cons_of_mem _ he'))]
      simp [List.filter_cons, hb, List.append_assoc]
    · have hne : ¬ e.content.length = 0 := by omega
      have hlt : ¬ e.content.length < 9 := by omega
      have hb : (e.content.length == 0) = false := beq_eq_false_iff_ne.mpr hne
      have hacc : openAcc (ls, m, rm) e
          = .ok (ls ++ [(e.id, fromLE ((e.content.drop 1).take 8))],
                 max m e.id, rm) := by
        unfold openAcc openLogFile
        rw [if_neg hne, if_neg hlt]
      simp only [openFold, hacc]
      rw [ih _ _ _ (fun e' he' => h e' (List.mem_cons_of_mem _ he'))]
      simp [List.filter_cons, hb, List.append_assoc]

/-- C6 counterexample: a directory holding only the zero-length file `log5`
(so the maximum log id seen is 5): the file is deleted and `next_log_id` is
set to 0 — not to the maximum log id seen plus one, because the source sets
`next_log_id = 0` whenever no non-empty log file was found. -/
theorem open_next_log_id_zero :
    openLog [⟨5, []⟩]
        = .ok { replay_queue := [], removed := [5], next_log_id := 0,
                next_record_id := 1 } ∧
      (0 : Nat) ≠ 5 + 1 := by
  constructor
  · unfold openLog
    rw [show openFold [⟨5, []⟩] ([], 0, []) = .ok ([], 0, [5]) from rfl]
    simp
  · decide

/-- C6 (amended): on a directory whose non-empty `log<N>` files all have at
least 9 bytes, `open` succeeds and builds a replay queue holding one
`(log id, first record id)` entry per non-empty file — the first record id
read from bytes 1..9 — sorted ascending by first record id; it deletes the
zero-length files, sets `next_log_id` to 0 when no non-empty file was found
and to the maximum non-empty-file log id plus one otherwise, and starts the
record-id counter at 1. -/
theorem open_builds_replay_queue (dir : List DirEntry)
    (h : ∀ e ∈ dir, e.content.length = 0 ∨ 9 ≤ e.content.length) :
    ∃ r, openLog dir = .ok r ∧
      List.Perm r.replay_queue
        ((dir.filter (fun e => !(e.content.length == 0))).map
          (fun e => (e.id, fromLE ((e.content.drop 1).take 8)))) ∧
      r.replay_queue.Pairwise (fun a b : Nat × Nat => a.2 ≤ b.2) ∧
      r.removed = (dir.filter (fun e => e.content.length == 0)).map DirEntry.id ∧
      r.next_log_id = (if r.replay_queue.isEmpty then 0
        else (dir.filter (fun e => !(e.content.length == 0))).foldl
          (fun a e => max a e.id) 0 + 1) ∧
      r.next_record_id = 1 := by
  have htrans : ∀ (a b c : Nat × Nat),
      (fun a b : Nat × Nat => decide (a.2 ≤ b.2)) a b = true →
      (fun a b : Nat × Nat => decide (a.2 ≤ b.2)) b c = true →
      (fun a b : Nat × Nat => decide (a.2 ≤ b.2)) a c = true := by
    intro a b c hab hbc
    simp only [decide_eq_true_eq] at hab hbc ⊢
    omega
  have htotal : ∀ (a b : Nat × Nat),
      ((fun a b : Nat × Nat => decide (a.2 ≤ b.2)) a b ||
        (fun a b : Nat × Nat => decide (a.2 ≤ b.2)) b a) = true := by
    intro a b
    simp only [Bool.or_eq_true, decide_eq_true_eq]
    omega
  unfold openLog
  rw [openFold_spec dir [] 0 [] h]
  refine ⟨_, rfl, ?_, ?_, ?_, rfl, rfl⟩
  · have hp := List.mergeSort_perm
      (([] : List (Nat × Nat)) ++ (dir.filter (fun e => !(e.content.length == 0))).map
        (fun e => (e.id, fromLE ((e.content.drop 1).take 8))))
      (fun a b => a.2 ≤ b.2)
    rwa [List.nil_append] at hp
  · exact (List.sorted_mergeSort htrans htotal _).imp
      (fun hab => of_decide_eq_true hab)
  · simp

/-- C6 witness: a directory with non-empty `log2` (first record id 20),
empty `log7`, and non-empty `log4` (first record id 10): `log7` is deleted,
the replay queue holds exactly the entries for logs 2 and 4 ordered by
record id, and `next_log_id` is the maximum id 4 plus one. -/
theorem open_builds_replay_queue_witness :
    ∃ r, openLog [⟨2, [1, 20, 0, 0, 0, 0, 0, 0, 0]⟩, ⟨7, []⟩,
                  ⟨4, [1, 10, 0, 0, 0, 0, 0, 0, 0]⟩] = .ok r ∧
      List.Perm r.replay_queue [(2, 20), (4, 10)] ∧
      r.replay_queue.Pairwise (fun a b : Nat × Nat => a.2 ≤ b.2) ∧
      r.removed = [7] ∧
      r.next_log_id = (if r.replay_queue.isEmpty then 0 else 4 + 1) ∧
      r.next_record_id = 1 :=
  open_builds_replay_queue
    [⟨2, [1, 20, 0, 0, 0, 0, 0, 0, 0]⟩, ⟨7, []⟩,
     ⟨4, [1, 10, 0, 0, 0, 0, 0, 0, 0]⟩] (by decide)

end ParityDb

